import Mathlib

/-
Verification of the qtoml TOML codec (decoder.py / encoder.py) against its
natural-language specification.

The embedding models Python strings as lists of Unicode code points (`Nat`
rather than `Char`, because Python strings may hold lone surrogates such as
U+D800, which `Char` cannot represent).  Python dicts become insertion-ordered
association lists; Python object identity (`id()`), which the decoder uses to
track explicitly-declared tables and inline arrays, is modelled by tagging
every table and array value with a unique allocation number drawn from a
counter threaded through the parser.  Loops in the source are modelled with an
explicit fuel parameter; running out of fuel yields the distinguished error
`Err.fuelOut`, which is never reached for the fuel bounds supplied (each loop
iteration of the source consumes at least one input character), and which at
worst makes the model more partial than the source, never more defined.
Uncaught Python exceptions (TypeError, IndexError, ValueError escaping the
decoder) are modelled by `Err.pyError`.
-/

namespace QToml

/-- Code-point strings: a Python `str` is a sequence of Unicode code points. -/
abbrev Str := List Nat

/-- Convert a Lean string literal to its code-point list (for writing inputs). -/
def str2cp (s : String) : Str := s.toList.map Char.toNat

/-- Python `s.rpartition(c)[2]`: the part of `l` after the last occurrence of
    `c`, or all of `l` when `c` does not occur. -/
def afterLast (c : Nat) (l : Str) : Str :=
  (l.reverse.takeWhile (fun x => x ≠ c)).reverse

/-- Spec-side formulation used by claim C8: "the suffix of `d` after its final
    newline", accumulated by a left-to-right scan that restarts at each
    newline.  This is deliberately a different formulation from `afterLast`
    (which transcribes the code's `rpartition`); the two are proved equal. -/
def suffixAfterFinalNL (d : Str) : Str :=
  d.foldl (fun acc c => if c = 10 then [] else acc ++ [c]) []

theorem afterLast_nil (c : Nat) : afterLast c [] = [] := rfl

theorem afterLast_concat (c : Nat) (l : Str) (x : Nat) :
    afterLast c (l ++ [x]) = if x = c then [] else afterLast c l ++ [x] := by
  unfold afterLast
  rw [List.reverse_append]
  simp only [List.reverse_cons, List.reverse_nil, List.nil_append, List.singleton_append,
    List.takeWhile]
  by_cases h : x = c
  · simp [h]
  · simp [h, List.reverse_cons]

theorem suffixAfterFinalNL_concat (l : Str) (x : Nat) :
    suffixAfterFinalNL (l ++ [x]) =
      if x = 10 then [] else suffixAfterFinalNL l ++ [x] := by
  unfold suffixAfterFinalNL
  rw [List.foldl_append]
  simp

theorem afterLast_eq_suffixAfterFinalNL (d : Str) :
    afterLast 10 d = suffixAfterFinalNL d := by
  induction d using List.reverseRecOn with
  | nil => rfl
  | append_singleton l x ih =>
      rw [afterLast_concat, suffixAfterFinalNL_concat, ih]

theorem afterLast_of_count_zero (d : Str) (h : d.count 10 = 0) :
    afterLast 10 d = d := by
  induction d using List.reverseRecOn with
  | nil => rfl
  | append_singleton l x ih =>
      rw [List.count_append] at h
      simp only [List.count_singleton] at h
      rw [afterLast_concat]
      by_cases hx : x = 10
      · subst hx; simp at h
      · simp only [hx, if_false]
        rw [ih]
        omega

/-! ## Scanner (class ParseState, decoder.py lines 15-82) -/

structure ParseState where
  string : Str
  index : Nat
  line : Nat
  col : Nat
deriving Repr, DecidableEq

def mkParse (s : Str) : ParseState := ⟨s, 0, 1, 0⟩

/-- `at_string`: does the input at the current index start with `s`? -/
def ParseState.at_string (p : ParseState) (s : Str) : Bool :=
  (p.string.drop p.index).take s.length = s

def ParseState.at_end (p : ParseState) : Bool :=
  p.string.length ≤ p.index

def ParseState.len (p : ParseState) : Nat :=
  p.string.length - p.index

/-- `get(n)`: the next up-to-`n` characters, non-consuming. -/
def ParseState.get (p : ParseState) (n : Nat) : Str :=
  (p.string.drop p.index).take n

/-- `advance(n)` (decoder.py lines 55-65): consume `n` characters, returning
    them and updating line/column.  As in the source, the index is advanced by
    the full `n` even if fewer characters remain. -/
def ParseState.advance (p : ParseState) (n : Nat) : Str × ParseState :=
  let d := (p.string.drop p.index).take n
  let lc := d.count 10
  let cc := (afterLast 10 d).length
  (d, { p with line := p.line + lc
             , col := if 0 < lc then cc else p.col + cc
             , index := p.index + n })

/-- `rfind('\n', 0, e) + 1` of the source's backtrack: the number of
    characters of `take e s` up to and including its last newline. -/
def lineStartAt (s : Str) (e : Nat) : Nat :=
  (s.take e).length - (afterLast 10 (s.take e)).length

/-- `backtrack(n)` (decoder.py lines 67-78). -/
def ParseState.backtrack (p : ParseState) (n : Nat) : ParseState :=
  if p.index ≤ n then { p with index := 0, line := 1, col := 0 }
  else
    let d := (p.string.take p.index).drop (p.index - n)
    let lc := d.count 10
    let idx' := p.index - n
    { p with line := p.line - lc, index := idx', col := idx' - lineStartAt p.string idx' }

/-- `advance_through_class` (decoder.py lines 38-45). -/
def ParseState.advance_through_class (p : ParseState) (cls : Str) : Str × ParseState :=
  let k := ((p.string.drop p.index).takeWhile (fun c => cls.contains c)).length
  p.advance k

/-- Worker for `findSeq`, structurally recursive on the remaining scan
    length so that it reduces in the kernel. -/
def findSeqAux (s pat : Str) : Nat → Nat → Option Nat
  | 0, _ => none
  | fuel + 1, i =>
    if s.length < i + pat.length then none
    else if (s.drop i).take pat.length = pat then some i
    else findSeqAux s pat fuel (i + 1)

/-- First index `i ≥ start` at which `pat` occurs in `s` (Python `str.find`). -/
def findSeq (s pat : Str) (start : Nat) : Option Nat :=
  findSeqAux s pat (s.length + 1 - start) start

/-- `advance_until` (decoder.py lines 47-53): consume up to and including the
    first occurrence of `s`, or to end of input if absent. -/
def ParseState.advance_until (p : ParseState) (s : Str) : Str × ParseState :=
  let i := match findSeq p.string s p.index with
           | none => p.string.length
           | some j => j + s.length
  p.advance (i - p.index)

/-- C8: `advance(n)`, consuming text `d`, increases `line` by the number of
    newline characters in `d`; if `d` contains at least one newline the column
    becomes the length of the suffix of `d` after its final newline, otherwise
    the column increases by the length of `d`. -/
theorem c8_advance_line_col (p : ParseState) (n : Nat) :
    ((p.advance n).2.line = p.line + ((p.advance n).1.count 10)) ∧
    ((p.advance n).2.col =
      if 0 < (p.advance n).1.count 10
      then (suffixAfterFinalNL (p.advance n).1).length
      else p.col + (p.advance n).1.length) := by
  refine ⟨rfl, ?_⟩
  show (if 0 < ((p.string.drop p.index).take n).count 10
        then (afterLast 10 ((p.string.drop p.index).take n)).length
        else p.col + (afterLast 10 ((p.string.drop p.index).take n)).length) =
       (if 0 < ((p.string.drop p.index).take n).count 10
        then (suffixAfterFinalNL ((p.string.drop p.index).take n)).length
        else p.col + ((p.string.drop p.index).take n).length)
  by_cases h : 0 < ((p.string.drop p.index).take n).count 10
  · simp only [h, if_true, afterLast_eq_suffixAfterFinalNL]
  · simp only [h, if_false]
    have h0 : ((p.string.drop p.index).take n).count 10 = 0 := by omega
    rw [afterLast_of_count_zero _ h0]

/-! ## Errors -/

/-- Decoder/encoder failure.  `decodeError`/`encodeError` carry the (static
    part of the) message; interpolated values from the source's f-strings are
    elided.  `pyError` models an uncaught Python exception (TypeError,
    IndexError, ValueError propagating out of the codec).  `fuelOut` is the
    fuel-exhaustion artifact of the embedding, unreachable for the supplied
    bounds. -/
inductive Err where
  | decodeError (msg : String)
  | encodeError (msg : String)
  | pyError
  | fuelOut
deriving Repr, DecidableEq

/-! ## A small backtracking regex engine

The decoder uses four `re` patterns (`int_re`, `float_re`, the date/time
patterns).  We embed the needed subset of Python `re` semantics directly:
ordered (leftmost) alternation, greedy quantifiers with backtracking,
capturing groups, lookahead, `$`.  `runRE` enumerates all matches of `re` at
`pos` in backtracking order; `re.match` is the head of that list. -/

inductive RE where
  | cls (set : Str)          -- character class [..]
  | seq (a b : RE)
  | alt (a b : RE)           -- ordered alternation
  | star (a : RE)            -- greedy a*
  | opt (a : RE)             -- greedy a?
  | grp (i : Nat) (a : RE)   -- capturing group number i
  | look (a : RE)            -- lookahead (?=a)
  | eos                      -- $
deriving Repr

/-- Captured group spans: (group index, start, end), most recent first. -/
abbrev Caps := List (Nat × Nat × Nat)

def runRE (fuel : Nat) (re : RE) (s : Str) (pos : Nat) (cs : Caps) :
    List (Nat × Caps) :=
  match fuel with
  | 0 => []
  | fuel + 1 =>
    match re with
    | .cls set =>
        match s.get? pos with
        | some c => if set.contains c then [(pos + 1, cs)] else []
        | none => []
    | .seq a b =>
        (runRE fuel a s pos cs).flatMap (fun pc => runRE fuel b s pc.1 pc.2)
    | .alt a b => runRE fuel a s pos cs ++ runRE fuel b s pos cs
    | .star a =>
        ((runRE fuel a s pos cs).flatMap
          (fun pc => if pos < pc.1 then runRE fuel (.star a) s pc.1 pc.2 else []))
          ++ [(pos, cs)]
    | .opt a => runRE fuel a s pos cs ++ [(pos, cs)]
    | .grp i a =>
        (runRE fuel a s pos cs).map (fun pc => (pc.1, (i, pos, pc.1) :: pc.2))
    | .look a =>
        match runRE fuel a s pos cs with
        | [] => []
        | pc :: _ => [(pos, pc.2)]
    | .eos => if pos = s.length then [(pos, cs)] else []

def sizeRE : RE → Nat
  | .cls _ => 1
  | .seq a b => sizeRE a + sizeRE b + 1
  | .alt a b => sizeRE a + sizeRE b + 1
  | .star a => sizeRE a + 1
  | .opt a => sizeRE a + 1
  | .grp _ a => sizeRE a + 1
  | .look a => sizeRE a + 1
  | .eos => 1

/-- `re.match(s, pos)`: leftmost match of `re` anchored at `pos`; returns the
    end position and the group captures.  The fuel bounds the backtracking
    recursion depth, which never exceeds (pattern size) × (remaining input)
    since every quantifier body of the patterns below consumes a character. -/
def matchRE (re : RE) (s : Str) (pos : Nat) : Option (Nat × Caps) :=
  (runRE ((sizeRE re + 2) * (s.length + 2)) re s pos []).head?

def getCap (cs : Caps) (i : Nat) : Option (Nat × Nat) :=
  match cs with
  | [] => none
  | (j, st, en) :: rest => if j = i then some (st, en) else getCap rest i

def reLit (c : Nat) : RE := .cls [c]

def reStr : Str → RE
  | [] => .eos  -- unused; the literals below are nonempty
  | [c] => reLit c
  | c :: rest => .seq (reLit c) (reStr rest)

def rePlus (a : RE) : RE := .seq a (.star a)

def digitCls : RE := .cls (str2cp "0123456789")

def wsChars : Str := [32, 9, 10, 13, 12, 11]

/-- The tail lookahead `(?=([\s,\]}]|$))` shared by `int_re` and `float_re`. -/
def lookTail : RE := .look (.alt (.cls (wsChars ++ [44, 93, 125])) .eos)

/-- `int_re` (decoder.py lines 227-229):
    `((0[xob][0-9a-fA-F_]+)|([+-]?([0-9]|[1-9][0-9_]*[0-9])))(?=[\s,\]}]|$)`. -/
def intRE : RE :=
  .seq
    (.alt
      (.seq (reLit 48) (.seq (.cls (str2cp "xob"))
        (rePlus (.cls (str2cp "0123456789abcdefABCDEF_")))))
      (.seq (.opt (.cls (str2cp "+-")))
        (.alt digitCls
          (.seq (.cls (str2cp "123456789"))
            (.seq (.star (.cls (str2cp "0123456789_"))) digitCls)))))
    lookTail

/-- The decimal-digit group `([0-9]|[1-9][0-9_]*[0-9])` of `float_re`. -/
def numPart : RE :=
  .alt digitCls
    (.seq (.cls (str2cp "123456789"))
      (.seq (.star (.cls (str2cp "0123456789_"))) digitCls))

/-- The fraction/exponent digit group `([0-9]|[0-9][0-9_]*[0-9])`. -/
def numPart0 : RE :=
  .alt digitCls
    (.seq digitCls (.seq (.star (.cls (str2cp "0123456789_"))) digitCls))

/-- Group indices used for `float_re`: 0 = `frac`, 1 = `exp`. -/
def floatRE : RE :=
  .seq (.opt (.cls (str2cp "+-")))
    (.seq
      (.alt (reStr (str2cp "inf"))
        (.alt (reStr (str2cp "nan"))
          (.seq numPart
            (.seq (.opt (.grp 0 (.seq (reLit 46) numPart0)))
              (.opt (.grp 1 (.seq (.cls (str2cp "eE"))
                (.seq (.opt (.cls (str2cp "+-"))) numPart0))))))))
      lookTail)

/-- `date_res` with group indices y/m/d. -/
def dateRE (y m d : Nat) : RE :=
  .seq (.grp y (.seq digitCls (.seq digitCls (.seq digitCls digitCls))))
    (.seq (reLit 45)
      (.seq (.grp m (.seq digitCls digitCls))
        (.seq (reLit 45) (.grp d (.seq digitCls digitCls)))))

/-- `time_res` with group indices hr/min/sec/msec; `\d{3,}` for `msec`. -/
def timeRE (hr mi se ms : Nat) : RE :=
  .seq (.grp hr (.seq digitCls digitCls))
    (.seq (reLit 58)
      (.seq (.grp mi (.seq digitCls digitCls))
        (.seq (reLit 58)
          (.seq (.grp se (.seq digitCls digitCls))
            (.opt (.seq (reLit 46)
              (.grp ms (.seq digitCls (.seq digitCls (rePlus digitCls))))))))))

/-- `datetime_re`: date `[T ]` time, optional `(?P<tz>(Z|[+-]\d\d:\d\d))`.
    Group indices: 0-2 date, 3-6 time, 7 tz. -/
def datetimeRE : RE :=
  .seq (dateRE 0 1 2)
    (.seq (.cls [84, 32])
      (.seq (timeRE 3 4 5 6)
        (.opt (.grp 7 (.alt (reLit 90)
          (.seq (.cls (str2cp "+-"))
            (.seq (.seq digitCls digitCls)
              (.seq (reLit 58) (.seq digitCls digitCls)))))))))

/-! ## Value model

`Val` is the decoder's value tree.  Tables and arrays carry an allocation
number modelling Python object identity (`id()`); scalars never enter the
decoder's identity sets, so they carry none.  Floats are represented by their
normalized literal (the matched text with underscores stripped), abstracting
IEEE-754 evaluation, on which no claim depends.  `PVal` is the identity-free
view used to state observable results. -/

inductive Val where
  | vstr (s : Str)
  | vint (n : Int)
  | vfloat (lit : Str)
  | vbool (b : Bool)
  | vdate (y mo d : Nat)
  | vtime (h mi s us : Nat)
  | vdatetime (y mo d h mi s us : Nat) (tzMinutes : Option Int)
  | varr (id : Nat) (elems : List Val)
  | vtable (id : Nat) (entries : List (Str × Val))
deriving Repr

inductive PVal where
  | pstr (s : Str)
  | pint (n : Int)
  | pfloat (lit : Str)
  | pbool (b : Bool)
  | pdate (y mo d : Nat)
  | ptime (h mi s us : Nat)
  | pdatetime (y mo d h mi s us : Nat) (tzMinutes : Option Int)
  | parr (elems : List PVal)
  | ptable (entries : List (Str × PVal))
deriving Repr

mutual
def erase : Val → PVal
  | .vstr s => .pstr s
  | .vint n => .pint n
  | .vfloat l => .pfloat l
  | .vbool b => .pbool b
  | .vdate a b c => .pdate a b c
  | .vtime a b c d => .ptime a b c d
  | .vdatetime a b c d e f g tz => .pdatetime a b c d e f g tz
  | .varr _ es => .parr (eraseList es)
  | .vtable _ es => .ptable (eraseEntries es)

def eraseList : List Val → List PVal
  | [] => []
  | v :: t => erase v :: eraseList t

def eraseEntries : List (Str × Val) → List (Str × PVal)
  | [] => []
  | (k, v) :: t => (k, erase v) :: eraseEntries t
end

/-! ## Association-list operations for tables (Python dicts preserve
insertion order; assignment to an existing key keeps its position, new keys
are appended). -/

def lookupKey (es : List (Str × Val)) (k : Str) : Option Val :=
  match es with
  | [] => none
  | (k', v) :: t => if k' = k then some v else lookupKey t k

def hasKey (es : List (Str × Val)) (k : Str) : Bool :=
  (lookupKey es k).isSome

def setKey (es : List (Str × Val)) (k : Str) (v : Val) : List (Str × Val) :=
  match es with
  | [] => []
  | (k', v') :: t => if k' = k then (k', v) :: t else (k', v') :: setKey t k v

/-! ## parse_throwaway (decoder.py lines 89-98) -/

def throwawayLoop (fuel : Nat) (p : ParseState) (acc : Str) : Str × ParseState :=
  match fuel with
  | 0 => (acc, p)
  | fuel + 1 =>
    match p.advance_through_class (str2cp " \t\r\n") with
    | (d, p) =>
      let acc := acc ++ d
      if p.at_string [35] then
        match p.advance_until [10] with
        | (d2, p) => throwawayLoop fuel p (acc ++ d2)
      else (acc, p)

def parse_throwaway (p : ParseState) : Nat × ParseState :=
  let sp := throwawayLoop (p.len + 2) p []
  (sp.1.count 10, sp.2)

/-! ## class_partition / class_rpartition (decoder.py lines 100-115) -/

def class_partition (cls s : Str) : Str × Str :=
  let ns := s.dropWhile (fun c => cls.contains c)
  (s.take (s.length - ns.length), ns)

def class_rpartition (cls s : Str) : Str × Str :=
  let lc := (s.reverse.takeWhile (fun c => cls.contains c)).length
  if lc = 0 then (s, [])
  else (s.take (s.length - lc), s.drop (s.length - lc))

/-! ## String parsing (decoder.py lines 117-206) -/

/-- The `escape_vals` table. -/
def escapeVal (c : Nat) : Option Nat :=
  if c = 98 then some 8        -- \b
  else if c = 116 then some 9  -- \t
  else if c = 110 then some 10 -- \n
  else if c = 102 then some 12 -- \f
  else if c = 114 then some 13 -- \r
  else if c = 34 then some 34  -- \"
  else if c = 92 then some 92  -- backslash
  else none

def endsSeq (s suf : Str) : Bool :=
  s.drop (s.length - suf.length) = suf

/-- Python `int(x, 16)`: optional surrounding whitespace, optional sign,
    optional `0x`/`0X` prefix (with an optional underscore after it), then
    hex digits with single underscores strictly between digits. -/
def hexDigit (c : Nat) : Bool :=
  (48 ≤ c && c ≤ 57) || (97 ≤ c && c ≤ 102) || (65 ≤ c && c ≤ 70)

def hexDigVal (c : Nat) : Nat :=
  if c ≤ 57 then c - 48 else if c ≤ 70 then c - 55 else c - 87

/-- Hex digits with single underscores between digits: `d ( _? d )*`. -/
def hexCore : Str → Option Nat
  | [] => none
  | c :: rest =>
    if hexDigit c then hexCoreTail rest (hexDigVal c) else none
where hexCoreTail : Str → Nat → Option Nat
  | [], acc => some acc
  | [95], _ => none  -- trailing underscore
  | 95 :: c :: rest, acc =>
      if c = 95 then none  -- doubled underscore
      else if hexDigit c then hexCoreTail rest (acc * 16 + hexDigVal c) else none
  | c :: rest, acc =>
      if hexDigit c then hexCoreTail rest (acc * 16 + hexDigVal c) else none

def pyInt16 (s : Str) : Option Int :=
  let s := s.dropWhile (fun c => wsChars.contains c)
  let s := (s.reverse.dropWhile (fun c => wsChars.contains c)).reverse
  let signed : Bool × Str :=
    match s with
    | 45 :: rest => (true, rest)
    | 43 :: rest => (false, rest)
    | _ => (false, s)
  let body : Str :=
    match signed.2 with
    | 48 :: 120 :: rest => if rest.head? = some 95 then rest.drop 1 else rest  -- 0x
    | 48 :: 88 :: rest => if rest.head? = some 95 then rest.drop 1 else rest   -- 0X
    | other => other
  match hexCore body with
  | none => none
  | some n => some (if signed.1 then -(n : Int) else (n : Int))

/-- Control characters rejected in strings: U+0000-U+0008, U+000B-U+001F,
    U+007F (decoder.py lines 152-153). -/
def controlChars : Str :=
  (List.range 9) ++ (List.range' 11 21) ++ [127]

/-- The delimiter-search loop of `parse_string` (decoder.py lines 129-148):
    scan to the closing delimiter, then check the parity of the backslashes
    before it; an odd count means the delimiter is escaped, so back up
    `len(delim)-1` characters and resume. -/
def strLoop (fuel : Nat) (delim : Str) (allow_escapes : Bool) (sv : Str)
    (p : ParseState) : Except Err (Str × ParseState) :=
  match fuel with
  | 0 => .error .fuelOut
  | fuel + 1 =>
    match p.advance_until delim with
    | (d, p) =>
    let sv := sv ++ d
    if p.at_end ∧ ¬ endsSeq sv delim then
      .error (.decodeError "end of file inside string")
    else if allow_escapes then
      let ab := class_rpartition [92] (sv.take (sv.length - delim.length))
      if ab.2.length % 2 = 0 then .ok (sv, p)
      else
        let n_remove := delim.length - 1
        match (if 0 < n_remove then (sv.take (sv.length - n_remove), p.backtrack n_remove)
               else (sv, p)) with
        | (sv, p) =>
          if p.at_end then .error (.decodeError "end of file after escaped delimiter")
          else strLoop fuel delim allow_escapes sv p
    else .ok (sv, p)

/-- The escape-substitution loop of `parse_string` (decoder.py lines 158-205).
    `start` is `bs + len(last_subst)` of the source. -/
def escLoop (fuel : Nat) (whitespace_escape : Bool) (sv : Str) (start : Nat) :
    Except Err Str :=
  match fuel with
  | 0 => .error .fuelOut
  | fuel + 1 =>
    match findSeq sv [92] start with
    | none => .ok sv
    | some bs =>
      match sv.get? (bs + 1) with
      | none => .error .pyError  -- IndexError on sv[bs + 1]
      | some ev =>
        match escapeVal ev with
        | some sub =>
            escLoop fuel whitespace_escape (sv.take bs ++ [sub] ++ sv.drop (bs + 2)) (bs + 1)
        | none =>
          if ev = 117 then  -- \uXXXX
            let hexval := (sv.drop (bs + 2)).take 4
            if hexval.length ≠ 4 then .error (.decodeError "hexval cutoff in u-escape")
            else match pyInt16 hexval with
            | none => .error (.decodeError "bad hex escape")
            | some iv =>
              if 0xd800 < iv ∧ iv ≤ 0xdfff then
                .error (.decodeError "non-scalar unicode escape")
              else if iv < 0 ∨ 0x10ffff < iv then
                -- chr() raises ValueError, caught by the same handler
                .error (.decodeError "bad hex escape")
              else
                escLoop fuel whitespace_escape
                  (sv.take bs ++ [iv.toNat] ++ sv.drop (bs + 6)) (bs + 1)
          else if ev = 85 then  -- \UXXXXXXXX
            let hexval := (sv.drop (bs + 2)).take 8
            if hexval.length ≠ 8 then .error (.decodeError "hexval cutoff in U-escape")
            else match pyInt16 hexval with
            | none => .error (.decodeError "bad hex escape")
            | some iv =>
              if 0xd800 < iv ∧ iv ≤ 0xdfff then
                .error (.decodeError "non-scalar unicode escape")
              else if iv < 0 ∨ 0x10ffff < iv then
                .error (.decodeError "bad hex escape")
              else
                escLoop fuel whitespace_escape
                  (sv.take bs ++ [iv.toNat] ++ sv.drop (bs + 10)) (bs + 1)
          else
            -- whitespace_escape and ws_re.match(sv, pos=bs+1)
            let wlen := ((sv.drop (bs + 1)).takeWhile (fun c => c = 32 ∨ c = 9)).length
            if whitespace_escape ∧ sv.get? (bs + 1 + wlen) = some 10 then
              let a := (class_partition [32, 9, 10] (sv.drop (bs + 2))).1
              escLoop fuel whitespace_escape
                (sv.take bs ++ sv.drop (bs + 2 + a.length)) bs
            else .error (.decodeError "not a valid escape")

/-- `parse_string` (decoder.py lines 121-206). -/
def parse_string (p : ParseState) (delim : Str) (allow_escapes : Bool)
    (allow_newlines : Bool) (whitespace_escape : Bool) :
    Except Err (Str × ParseState) :=
  if ¬ p.at_string delim then
    .error (.decodeError "string doesn't begin with delimiter")
  else
    let p := (p.advance delim.length).2
    match strLoop (p.len + 2) delim allow_escapes [] p with
    | .error e => .error e
    | .ok (sv0, p) =>
      let sv := sv0.take (sv0.length - delim.length)
      if sv.contains 10 ∧ ¬ allow_newlines then
        .error (.decodeError "newline in basic string")
      else if sv.any (fun c => controlChars.contains c) then
        .error (.decodeError "unescaped control character in string")
      else
        let sv := if allow_newlines ∧ sv.head? = some 10 then sv.drop 1 else sv
        if allow_escapes then
          match escLoop (sv.length + 2) whitespace_escape sv 0 with
          | .error e => .error e
          | .ok sv => .ok (sv, p)
        else .ok (sv, p)

/-! ## Numbers (decoder.py lines 208-253) -/

def hasSeq (s pat : Str) : Bool := (findSeq s pat 0).isSome

/-- Text of capture group `i` within `s`. -/
def capText (s : Str) (caps : Caps) (i : Nat) : Option Str :=
  (getCap caps i).map (fun q => (s.take q.2).drop q.1)

/-- `parse_float` (decoder.py lines 212-225).  The float value is kept as its
    normalized literal (underscores stripped); IEEE evaluation is abstracted,
    no claim depends on it. -/
def parse_float (p : ParseState) : Except Err (Val × ParseState) :=
  match matchRE floatRE p.string p.index with
  | none => .error (.decodeError "tried to parse_float non-float")
  | some (endPos, caps) =>
    let mv := (p.string.take endPos).drop p.index
    if ¬ ((getCap caps 0).isSome ∨ (getCap caps 1).isSome) ∧
       ¬ (hasSeq mv (str2cp "inf") ∨ hasSeq mv (str2cp "nan")) then
      .error (.decodeError "tried to parse_float, but should be int")
    else
      let p := (p.advance mv.length).2
      if hasSeq mv [95, 95] then .error (.decodeError "double underscore in number")
      else .ok (.vfloat (mv.filter (fun c => c ≠ 95)), p)

/-- Digit value of `c` in `base`, when valid (strict `int(s, base)` on
    regex-vetted digit strings). -/
def digitInBase (base c : Nat) : Option Nat :=
  if 48 ≤ c ∧ c ≤ 57 ∧ c - 48 < base then some (c - 48)
  else if 97 ≤ c ∧ c ≤ 102 ∧ c - 87 < base then some (c - 87)
  else if 65 ≤ c ∧ c ≤ 70 ∧ c - 55 < base then some (c - 55)
  else none

def strictDigits (s : Str) (base : Nat) : Option Nat :=
  match s with
  | [] => none
  | _ => s.foldl (fun acc c =>
      match acc, digitInBase base c with
      | some a, some d => some (a * base + d)
      | _, _ => none) (some 0)

/-- `parse_int` (decoder.py lines 230-253). -/
def parse_int (p : ParseState) : Except Err (Val × ParseState) :=
  match matchRE intRE p.string p.index with
  | none => .error (.decodeError "tried to parse_int non-int")
  | some (endPos, _) =>
    let mv := (p.string.take endPos).drop p.index
    let p := (p.advance mv.length).2
    let prefixUnd : Bool :=  -- re.match('0[xob]_', mv)
      match mv with
      | 48 :: c :: 95 :: _ => c = 120 ∨ c = 111 ∨ c = 98
      | _ => false
    if hasSeq mv [95, 95] ∨ prefixUnd ∨ mv.getLast? = some 95 then
      .error (.decodeError "invalid underscores in int")
    else
      let sv := mv.filter (fun c => c ≠ 95)
      let bs : Nat × Str :=
        match sv with
        | 48 :: 120 :: rest => (16, rest)
        | 48 :: 98 :: rest => (2, rest)
        | 48 :: 111 :: rest => (8, rest)
        | _ => (10, sv)
      let sd : Int × Str :=
        match bs.2 with
        | 43 :: rest => (1, rest)
        | 45 :: rest => (-1, rest)
        | _ => (1, bs.2)
      match strictDigits sd.2 bs.1 with
      | none => .error (.decodeError "invalid integer for base")
      | some n => .ok (.vint (sd.1 * (n : Int)), p)

/-! ## Datetimes (decoder.py lines 281-339).  Python's `datetime` constructors
validate field ranges and raise ValueError, which the decoder does not catch;
that surfaces as `pyError`. -/

def decVal (l : Str) : Nat := l.foldl (fun a c => a * 10 + (c - 48)) 0

def isLeap (y : Nat) : Bool := y % 4 = 0 ∧ (y % 100 ≠ 0 ∨ y % 400 = 0)

def daysInMonth (y mo : Nat) : Nat :=
  if mo = 2 then (if isLeap y then 29 else 28)
  else if mo = 4 ∨ mo = 6 ∨ mo = 9 ∨ mo = 11 then 30
  else 31

def dateOk (y mo d : Nat) : Bool :=
  1 ≤ y ∧ y ≤ 9999 ∧ 1 ≤ mo ∧ mo ≤ 12 ∧ 1 ≤ d ∧ d ≤ daysInMonth y mo

def timeOk (h mi s : Nat) : Bool := h ≤ 23 ∧ mi ≤ 59 ∧ s ≤ 59

/-- `time_from_string` microseconds: first six digits of the fraction,
    scaled to microseconds. -/
def msecOf (msCap : Option Str) : Nat :=
  let msStr := (msCap.getD [48]).take 6
  decVal msStr * 10 ^ (6 - msStr.length)

def dateFromCaps (s : Str) (caps : Caps) (yi mi di : Nat) : Except Err (Nat × Nat × Nat) :=
  let y := decVal ((capText s caps yi).getD [])
  let mo := decVal ((capText s caps mi).getD [])
  let d := decVal ((capText s caps di).getD [])
  if dateOk y mo d then .ok (y, mo, d) else .error .pyError

def timeFromCaps (s : Str) (caps : Caps) (hi mii si msi : Nat) :
    Except Err (Nat × Nat × Nat × Nat) :=
  let h := decVal ((capText s caps hi).getD [])
  let mi := decVal ((capText s caps mii).getD [])
  let se := decVal ((capText s caps si).getD [])
  if timeOk h mi se then .ok (h, mi, se, msecOf (capText s caps msi))
  else .error .pyError

/-- Offset of the `tz` capture: `Z` is UTC; `±HH:MM` a fixed offset.
    `datetime.timezone` requires the magnitude to be under 24 hours. -/
def tzOfCap (tzCap : Option Str) : Except Err (Option Int) :=
  match tzCap with
  | none => .ok none
  | some t =>
    if t = [90] then .ok (some 0)
    else
      let hh := decVal ((t.drop 1).take 2)
      let mm := decVal ((t.drop 4).take 2)
      let total : Int := hh * 60 + mm
      if total ≥ 1440 then .error .pyError
      else .ok (some (if t.head? = some 45 then -total else total))

def is_date_or_time (p : ParseState) : Bool :=
  (matchRE (dateRE 0 1 2) p.string p.index).isSome ∨
  (matchRE (timeRE 0 1 2 3) p.string p.index).isSome

/-- `parse_datetime` (decoder.py lines 320-335). -/
def parse_datetime (p : ParseState) : Except Err (Val × ParseState) :=
  match matchRE datetimeRE p.string p.index with
  | some (endPos, caps) =>
    let p' := (p.advance (endPos - p.index)).2
    match dateFromCaps p.string caps 0 1 2 with
    | .error e => .error e
    | .ok (y, mo, d) =>
      match timeFromCaps p.string caps 3 4 5 6 with
      | .error e => .error e
      | .ok (h, mi, se, us) =>
        match tzOfCap (capText p.string caps 7) with
        | .error e => .error e
        | .ok tz => .ok (.vdatetime y mo d h mi se us tz, p')
  | none =>
    match matchRE (timeRE 0 1 2 3) p.string p.index with
    | some (endPos, caps) =>
      let p' := (p.advance (endPos - p.index)).2
      match timeFromCaps p.string caps 0 1 2 3 with
      | .error e => .error e
      | .ok (h, mi, se, us) => .ok (.vtime h mi se us, p')
    | none =>
      match matchRE (dateRE 0 1 2) p.string p.index with
      | some (endPos, caps) =>
        let p' := (p.advance (endPos - p.index)).2
        match dateFromCaps p.string caps 0 1 2 with
        | .error e => .error e
        | .ok (y, mo, d) => .ok (.vdate y mo d, p')
      | none => .error (.decodeError "failed to parse datetime")

/-! ## proc_kl (decoder.py lines 477-512)

`proc_kl` receives a table (a Python reference), mutates it in place, and
returns a reference to the target table.  Here it returns the updated tree,
the target's identity, and the access path to the target inside that tree;
the path is how the caller's retained reference (`cur_target`) is modelled.
A path step either enters the table entry at a key or the last element of
the array at a key — exactly the two descents of the source. -/

inductive PStep where
  | intoKey (k : Str)
  | intoLast (k : Str)
deriving Repr, DecidableEq

def procKl (c : Val) (kl : List Str) (tarray : Bool) (arrays : List Nat)
    (al : Nat) : Except Err (Val × Nat × List PStep × Nat) :=
  match kl with
  | [] =>
    match c with
    | .vtable i _ => .ok (c, i, [], al)
    | _ => .error .pyError
  | [fk] =>
    match c with
    | .vtable ci es =>
      if tarray then
        match lookupKey es fk with
        | some (.varr ai elems) =>
          if arrays.contains ai then
            .error (.decodeError "appended to statically defined array")
          else
            .ok (.vtable ci (setKey es fk (.varr ai (elems ++ [.vtable al []]))),
                 al, [.intoLast fk], al + 1)
        | some _ => .error (.decodeError "repeated key in keylist")
        | none =>
          -- `c[fk] = []` (fresh array), then the identity check (which cannot
          -- fire for a fresh object but is kept for fidelity), then append
          if arrays.contains al then
            .error (.decodeError "appended to statically defined array")
          else
            .ok (.vtable ci (es ++ [(fk, .varr al [.vtable (al + 1) []])]),
                 al + 1, [.intoLast fk], al + 2)
      else
        match lookupKey es fk with
        | some (.vtable ti _) => .ok (c, ti, [.intoKey fk], al)
        | some _ => .error (.decodeError "repeated key in keylist")
        | none =>
          .ok (.vtable ci (es ++ [(fk, .vtable al [])]), al, [.intoKey fk], al + 1)
    | _ => .error .pyError
  | i :: rest =>
    match c with
    | .vtable ci es =>
      let step : Except Err (List (Str × Val) × Val × Nat) :=
        match lookupKey es i with
        | some v =>
          match v with
          | .vtable _ _ => .ok (es, v, al)
          | .varr _ _ => .ok (es, v, al)
          | _ => .error (.decodeError "repeated key in keylist")
        | none => .ok (es ++ [(i, .vtable al [])], .vtable al [], al + 1)
      match step with
      | .error e => .error e
      | .ok (es1, civ, al1) =>
        match civ with
        | .varr ai elems =>
          if arrays.contains ai then
            .error (.decodeError "appended to statically defined array")
          else
            match elems.getLast? with
            | none => .error .pyError  -- IndexError on c[i][-1]
            | some lastv =>
              match procKl lastv rest tarray arrays al1 with
              | .error e => .error e
              | .ok (sub, tid, path, al2) =>
                .ok (.vtable ci (setKey es1 i (.varr ai (elems.dropLast ++ [sub]))),
                     tid, .intoLast i :: path, al2)
        | _ =>
          match procKl civ rest tarray arrays al1 with
          | .error e => .error e
          | .ok (sub, tid, path, al2) =>
            .ok (.vtable ci (setKey es1 i sub), tid, .intoKey i :: path, al2)
    | _ => .error .pyError

/-- The pair-insertion sequence of the source (decoder.py lines 546-550 and,
    with a different message, 359-363): `target = proc_kl(c, kl[:-1], False,
    p, set())`, then `if k in target: raise`, then `target[k] = v`.  Because
    the source mutates the target in place through the reference `proc_kl`
    returns, descent and insertion are one traversal here; the descent steps
    mirror `proc_kl` with `tarray=False` and an empty identity set (both call
    sites pass `set()`), and the terminal table receives the membership check
    and the append. -/
def procKlInsert (c : Val) (kl : List Str) (k : Str) (v : Val) (msg : String)
    (al : Nat) : Except Err (Val × Nat) :=
  match kl with
  | [] =>
    -- proc_kl returns its argument; the insert lands in it
    match c with
    | .vtable ti es =>
      if hasKey es k then .error (.decodeError msg)
      else .ok (.vtable ti (es ++ [(k, v)]), al)
    | _ => .error .pyError
  | [fk] =>
    -- terminal step of proc_kl (tarray=False), then the insert into c[fk]
    match c with
    | .vtable ci es =>
      match lookupKey es fk with
      | some (.vtable ti tes) =>
        if hasKey tes k then .error (.decodeError msg)
        else .ok (.vtable ci (setKey es fk (.vtable ti (tes ++ [(k, v)]))), al)
      | some _ => .error (.decodeError "repeated key in keylist")
      | none =>
        -- fresh empty table `c[fk] = {}`; the membership check then passes
        .ok (.vtable ci (es ++ [(fk, .vtable al [(k, v)])]), al + 1)
    | _ => .error .pyError
  | i :: rest =>
    -- non-terminal step of proc_kl (the toplevel_arrays set here is empty)
    match c with
    | .vtable ci es =>
      let step : Except Err (List (Str × Val) × Val × Nat) :=
        match lookupKey es i with
        | some w =>
          match w with
          | .vtable _ _ => .ok (es, w, al)
          | .varr _ _ => .ok (es, w, al)
          | _ => .error (.decodeError "repeated key in keylist")
        | none => .ok (es ++ [(i, .vtable al [])], .vtable al [], al + 1)
      match step with
      | .error e => .error e
      | .ok (es1, civ, al1) =>
        match civ with
        | .varr ai elems =>
          match elems.getLast? with
          | none => .error .pyError  -- IndexError on c[i][-1]
          | some lastv =>
            match procKlInsert lastv rest k v msg al1 with
            | .error e => .error e
            | .ok (sub, al2) =>
              .ok (.vtable ci (setKey es1 i (.varr ai (elems.dropLast ++ [sub]))), al2)
        | _ =>
          match procKlInsert civ rest k v msg al1 with
          | .error e => .error e
          | .ok (sub, al2) => .ok (.vtable ci (setKey es1 i sub), al2)
    | _ => .error .pyError

/-- Apply the pair insertion through the retained `cur_target` reference:
    descend the access path, run `procKlInsert` on the referenced table, and
    rebuild on the way out (one traversal; the reference is always valid, so
    the `pyError` stale-path cases are unreachable). -/
def insertAtPath (c : Val) (path : List PStep) (kl : List Str) (k : Str)
    (v : Val) (msg : String) (al : Nat) : Except Err (Val × Nat) :=
  match path with
  | [] => procKlInsert c kl k v msg al
  | .intoKey kk :: rest =>
    match c with
    | .vtable ci es =>
      match lookupKey es kk with
      | some sub =>
        match insertAtPath sub rest kl k v msg al with
        | .ok (sub', al') => .ok (.vtable ci (setKey es kk sub'), al')
        | .error e => .error e
      | none => .error .pyError
    | _ => .error .pyError
  | .intoLast kk :: rest =>
    match c with
    | .vtable ci es =>
      match lookupKey es kk with
      | some (.varr ai elems) =>
        match elems.getLast? with
        | some sub =>
          match insertAtPath sub rest kl k v msg al with
          | .ok (sub', al') =>
            .ok (.vtable ci (setKey es kk (.varr ai (elems.dropLast ++ [sub']))), al')
          | .error e => .error e
        | none => .error .pyError
      | _ => .error .pyError
    | _ => .error .pyError

/-! ## Keys and string dispatch (decoder.py lines 376-443) -/

/-- `parse_dispatch_string` (decoder.py lines 376-394).  If none of the four
    quote prefixes applies the source falls off the `elif` chain and returns
    an unbound local, an UnboundLocalError: `pyError`. -/
def parse_dispatch_string (p : ParseState) (multiline_allowed : Bool) :
    Except Err (Str × ParseState) :=
  if p.at_string [34, 34, 34] then
    if ¬ multiline_allowed then .error (.decodeError "multiline string where not allowed")
    else parse_string p [34, 34, 34] true true true
  else if p.at_string [34] then parse_string p [34] true false false
  else if p.at_string [39, 39, 39] then
    if ¬ multiline_allowed then .error (.decodeError "multiline string where not allowed")
    else parse_string p [39, 39, 39] false true false
  else if p.at_string [39] then parse_string p [39] false false false
  else .error .pyError

/-- Characters allowed in unquoted keys (decoder.py line 421). -/
def key_chars : Str :=
  str2cp "ABCDEFGHIJKLMNOPQRSTUVWXYZabcdefghijklmnopqrstuvwxyz0123456789-_"

/-- `parse_key` (decoder.py lines 422-430).  Note Python's `ic in key_chars`
    is substring containment, which is vacuously true for the empty string
    `ic` obtained at end of input; the bare-key branch then consumes nothing
    and yields the empty key, exactly as the source does. -/
def parse_key (p : ParseState) : Except Err (Str × ParseState) :=
  let ic := p.get 1
  if ic = [34] ∨ ic = [39] then parse_dispatch_string p false
  else
    match ic.head? with
    | none => .ok (p.advance_through_class key_chars)
    | some c =>
      if key_chars.contains c then .ok (p.advance_through_class key_chars)
      else .error (.decodeError "cannot begin key")

def keylistLoop (fuel : Nat) (p : ParseState) (acc : List Str) :
    Except Err (List Str × ParseState) :=
  match fuel with
  | 0 => .error .fuelOut
  | fuel + 1 =>
    match parse_key p with
    | .error e => .error e
    | .ok (k, p) =>
      let p := (p.advance_through_class [32, 9]).2
      let acc := acc ++ [k]
      if p.at_string [46] then
        let p := (p.advance 1).2
        let p := (p.advance_through_class [32, 9]).2
        keylistLoop fuel p acc
      else .ok (acc, p)

/-- `parse_keylist` (decoder.py lines 432-443). -/
def parse_keylist (p : ParseState) : Except Err (List Str × ParseState) :=
  keylistLoop (p.len + 2) p []

/-! ## Value parsing (decoder.py lines 255-278, 341-374, 396-418)

`parse_value`, `parse_array` and `parse_inline_table` are mutually recursive;
the shared fuel bounds the loop iterations and nesting depth, both of which
consume at least one input character per unit in the source. -/

mutual

def parse_value (fuel : Nat) (p : ParseState) (al : Nat) :
    Except Err (Val × ParseState × Nat) :=
  match fuel with
  | 0 => .error .fuelOut
  | fuel + 1 =>
    if p.get 1 = [39] ∨ p.get 1 = [34] then
      match parse_dispatch_string p true with
      | .error e => .error e
      | .ok (s, p) => .ok (.vstr s, p, al)
    else if p.at_string [91] then parse_array fuel p al
    else if p.at_string [123] then parse_inline_table fuel p al
    else if p.at_string (str2cp "true") then .ok (.vbool true, (p.advance 4).2, al)
    else if p.at_string (str2cp "false") then .ok (.vbool false, (p.advance 5).2, al)
    else if (matchRE intRE p.string p.index).isSome then
      match parse_int p with
      | .error e => .error e
      | .ok (v, p) => .ok (v, p, al)
    else if (matchRE floatRE p.string p.index).isSome then
      match parse_float p with
      | .error e => .error e
      | .ok (v, p) => .ok (v, p, al)
    else if is_date_or_time p then
      match parse_datetime p with
      | .error e => .error e
      | .ok (v, p) => .ok (v, p, al)
    else .error (.decodeError "can't parse type")

termination_by structural fuel

def parse_array (fuel : Nat) (p : ParseState) (al : Nat) :
    Except Err (Val × ParseState × Nat) :=
  match fuel with
  | 0 => .error .fuelOut
  | fuel + 1 =>
    -- `rv = []` allocates the array object before anything else
    if ¬ p.at_string [91] then .error (.decodeError "tried to parse_array non-array")
    else
      let p := (p.advance 1).2
      let p := (parse_throwaway p).2
      arrayLoop fuel al [] p (al + 1)

termination_by structural fuel

def arrayLoop (fuel : Nat) (rvId : Nat) (acc : List Val) (p : ParseState)
    (al : Nat) : Except Err (Val × ParseState × Nat) :=
  match fuel with
  | 0 => .error .fuelOut
  | fuel + 1 =>
    if p.at_string [93] then .ok (.varr rvId acc, (p.advance 1).2, al)
    else
      match parse_value fuel p al with
      | .error e => .error e
      | .ok (v, p, al) =>
        let acc := acc ++ [v]
        let p := (parse_throwaway p).2
        if p.at_string [44] then
          let p := (p.advance 1).2
          let p := (parse_throwaway p).2
          arrayLoop fuel rvId acc p al
        else if p.at_string [93] then .ok (.varr rvId acc, (p.advance 1).2, al)
        else .error (.decodeError "bad next char in array")

termination_by structural fuel

def parse_inline_table (fuel : Nat) (p : ParseState) (al : Nat) :
    Except Err (Val × ParseState × Nat) :=
  match fuel with
  | 0 => .error .fuelOut
  | fuel + 1 =>
    if ¬ p.at_string [123] then
      .error (.decodeError "tried to parse_inline_table non-table")
    else
      let p := (p.advance 1).2
      let p := (p.advance_through_class [32, 9]).2
      inlineLoop fuel (.vtable al []) p (al + 1)

termination_by structural fuel

def inlineLoop (fuel : Nat) (rv : Val) (p : ParseState) (al : Nat) :
    Except Err (Val × ParseState × Nat) :=
  match fuel with
  | 0 => .error .fuelOut
  | fuel + 1 =>
    if p.at_string [125] then .ok (rv, (p.advance 1).2, al)
    else
      match parse_keylist p with
      | .error e => .error e
      | .ok (kl, p) =>
        let p := (p.advance_through_class [32, 9]).2
        if ¬ p.at_string [61] then .error (.decodeError "no = after key in inline")
        else
          let p := (p.advance 1).2
          let p := (p.advance_through_class [32, 9]).2
          match parse_value fuel p al with
          | .error e => .error e
          | .ok (v, p, al) =>
            let p := (p.advance_through_class [32, 9]).2
            match kl.getLast? with
            | none => .error .pyError
            | some k =>
              match procKlInsert rv kl.dropLast k v "duplicated key in inline" al with
              | .error e => .error e
              | .ok (rv, al) =>
                if p.at_string [44] then
                  let p := (p.advance 1).2
                  let p := (p.advance_through_class [32, 9]).2
                  inlineLoop fuel rv p al
                else if p.at_string [125] then .ok (rv, (p.advance 1).2, al)
                else .error (.decodeError "bad next char in inline table")

termination_by structural fuel
end

/-! ## Pairs, table specs, and the top-level loop (decoder.py lines 445-552) -/

/-- `parse_pair` (decoder.py lines 445-455).  Returns `none` at end of input
    (the source's `(None, None)`). -/
def parse_pair (fuel : Nat) (p : ParseState) (al : Nat) :
    Except Err (Option (List Str × Val) × ParseState × Nat) :=
  if p.at_end then .ok (none, p, al)
  else
    match parse_keylist p with
    | .error e => .error e
    | .ok (kl, p) =>
      let p := (p.advance_through_class [32, 9]).2
      if ¬ p.at_string [61] then .error (.decodeError "no = following key")
      else
        let p := (p.advance 1).2
        let p := (p.advance_through_class [32, 9]).2
        match parse_value fuel p al with
        | .error e => .error e
        | .ok (v, p, al) => .ok (some (kl, v), p, al)

/-- `parse_tablespec` (decoder.py lines 457-475). -/
def parse_tablespec (p : ParseState) : Except Err (List Str × ParseState) :=
  if ¬ p.at_string [91] then
    .error (.decodeError "tried parse_tablespec on non-tablespec")
  else
    let p := (p.advance 1).2
    let tarray := p.at_string [91]
    let p := if tarray then (p.advance 1).2 else p
    let p := (p.advance_through_class [32, 9]).2
    match parse_keylist p with
    | .error e => .error e
    | .ok (rv, p) =>
      if ¬ p.at_string [93] then .error (.decodeError "Bad char in tablespec")
      else
        let p := (p.advance 1).2
        if tarray then
          if ¬ p.at_string [93] then .error (.decodeError "Didn't close tarray properly")
          else .ok (rv, (p.advance 1).2)
        else .ok (rv, p)

/-- The `while` loop of `loads` (decoder.py lines 526-551).  `curPath` models
    the `cur_target` reference (a path into `root`), `targets` the
    `toplevel_targets` identity set, `arrays` the `toplevel_arrays` identity
    set, `F` the fuel handed to value parsing. -/
def loadsLoop (fuel F : Nat) (root : Val) (curPath : List PStep) (first : Bool)
    (targets arrays : List Nat) (al : Nat) (p : ParseState) (n : Nat) :
    Except Err Val :=
  match fuel with
  | 0 => .error .fuelOut
  | fuel + 1 =>
    if p.at_end then .ok root
    else
      match parse_throwaway p with
      | (n2, p) =>
      let n := n + n2
      if ¬ first ∧ n = 0 then .error (.decodeError "Didn't find expected newline")
      else
        -- from here on `first` is false either way
        if p.at_string [91] then
          let tarray := p.get 2 = [91, 91]
          match parse_tablespec p with
          | .error e => .error e
          | .ok (kl, p) =>
            match procKl root kl tarray arrays al with
            | .error e => .error e
            | .ok (root, tid, path, al) =>
              if targets.contains tid then .error (.decodeError "duplicated table")
              else
                let targets := tid :: targets
                match parse_throwaway p with
                | (n2, p2) => loadsLoop fuel F root path false targets arrays al p2 n2
        else
          match parse_pair F p al with
          | .error e => .error e
          | .ok (none, p, al) =>
            match parse_throwaway p with
            | (n2, p2) => loadsLoop fuel F root curPath false targets arrays al p2 n2
          | .ok (some (kl, v), p, al) =>
            let arrays := match v with
                          | .varr aid _ => aid :: arrays
                          | _ => arrays
            match kl.getLast? with
            | none => .error .pyError
            | some k =>
              match insertAtPath root curPath kl.dropLast k v "Key is repeated" al with
              | .error e => .error e
              | .ok (root, al) =>
                match parse_throwaway p with
                | (n2, p2) => loadsLoop fuel F root curPath false targets arrays al p2 n2

/-- `loads` (decoder.py lines 514-552).  The root table gets identity 0; the
    allocator then counts up from 1. -/
def loads (s : Str) : Except Err Val :=
  loadsLoop (s.length + 4) (s.length + 4) (.vtable 0 []) [] true [] [] 1 (mkParse s) 0

/-- Observable decode: the identity-free value tree. -/
def loadsP (s : Str) : Except Err PVal :=
  match loads s with
  | .error e => .error e
  | .ok v => .ok (erase v)

/-! ## Encoder (encoder.py)

The encoder embedding takes `Val` trees (every `Val` is an encodable type, so
`_get_encodable_object` with the default `default()` hook — which always
raises TypeError — is the identity and the "non-encodable" error paths cannot
fire; the corresponding checks are kept where they shape the control flow).
`encode_none` handling is not modelled: `Val` has no `None`. -/

def isTable : Val → Bool
  | .vtable _ _ => true
  | _ => false

def isArr : Val → Bool
  | .varr _ _ => true
  | _ => false

/-! `is_scalar` (encoder.py lines 72-88), with its `can_tarray` flag.
`anyScalarNT` is `any(self.is_scalar(i, can_tarray=False) for i in v)`. -/
mutual

def is_scalar (v : Val) (can_tarray : Bool) : Bool :=
  match v with
  | .varr _ es =>
    if es.isEmpty then true
    else if anyScalarNT es then true
    else if es.any isTable ∧ ¬ can_tarray then true
    else false
  | .vtable _ _ => false
  | _ => true  -- str, bool, int, float, datetime, date, time

def anyScalarNT : List Val → Bool
  | [] => false
  | v :: t => is_scalar v false || anyScalarNT t

end

/-- The `escapes` table (encoder.py lines 13-14). -/
def escapeOut (c : Nat) : Option Str :=
  if c = 8 then some [92, 98]
  else if c = 9 then some [92, 116]
  else if c = 10 then some [92, 110]
  else if c = 12 then some [92, 102]
  else if c = 13 then some [92, 114]
  else if c = 34 then some [92, 34]
  else if c = 92 then some [92, 92]
  else none

def hexChar (n : Nat) : Nat := if n < 10 then 48 + n else 97 + (n - 10)

def hex4 (n : Nat) : Str :=
  [hexChar (n / 4096 % 16), hexChar (n / 256 % 16), hexChar (n / 16 % 16), hexChar (n % 16)]

/-- `dump_bstr` (encoder.py lines 90-105). -/
def dump_bstr (s : Str) (multiline : Bool) : Str :=
  let delim := if multiline then [34, 34, 34] else [34]
  let body := (s.enum).flatMap (fun ni =>
    if ni.2 < 32 ∨ ni.2 = 92 ∨ ni.2 = 34 then
      if ni.2 = 10 ∧ multiline ∧ ni.1 ≠ 0 then [ni.2]
      else match escapeOut ni.2 with
           | some e => e
           | none => [92, 117] ++ hex4 ni.2
    else [ni.2])
  delim ++ body ++ delim

/-- `dump_rawstr` (encoder.py lines 107-111). -/
def dump_rawstr (s : Str) (multiline : Bool) : Except Err Str :=
  let delim := if multiline then [39, 39, 39] else [39]
  if hasSeq s delim then .error (.encodeError "raw string delimiter in raw string")
  else .ok (delim ++ s ++ delim)

/-- `dump_str` (encoder.py lines 113-126). -/
def dump_str (s : Str) (multiline_allowed : Bool) : Except Err Str :=
  let multiline := (s.drop 1).contains 10
  if (s.contains 39 ∧ ¬ multiline) ∨ hasSeq s [39, 39, 39] ∨
     s.any (fun c => c < 32 ∧ c ≠ 10) ∨ (multiline ∧ ¬ multiline_allowed) ∨
     s.head? = some 10 ∨ s.getLast? = some 39 then
    .ok (dump_bstr s (multiline && multiline_allowed))
  else dump_rawstr s multiline

def natDigitsAux : Nat → Nat → Str
  | 0, n => [48 + n % 10]  -- unreachable with the fuel below
  | fuel + 1, n => if n < 10 then [48 + n] else natDigitsAux fuel (n / 10) ++ [48 + n % 10]

def natDigits (n : Nat) : Str := natDigitsAux n n

def intToStr (i : Int) : Str :=
  if i < 0 then 45 :: natDigits i.natAbs else natDigits i.toNat

/-- Decimal `int()` of a `[+-]?digits` literal (used on float exponents). -/
def pyIntDec (s : Str) : Int :=
  match s with
  | 45 :: r => -(decVal r : Int)
  | 43 :: r => (decVal r : Int)
  | _ => (decVal s : Int)

def lastIdx (s : Str) (c : Nat) : Option Nat :=
  match s.reverse.findIdx? (fun x => x = c) with
  | some k => some (s.length - 1 - k)
  | none => none

/-- `dump_float` (encoder.py lines 134-142), acting on the stored normalized
    literal: strip leading zeroes in the exponent (via `rpartition('e')` and
    `int`), as Python's two-digit exponents would violate the TOML grammar.
    (Python's `str(float)` re-normalization of the mantissa is abstracted.) -/
def dump_float (fv : Str) : Str :=
  if fv.contains 101 then
    match lastIdx fv 101 with
    | some i => fv.take i ++ [101] ++ intToStr (pyIntDec (fv.drop (i + 1)))
    | none => fv
  else fv

def pad' (w n : Nat) : Str :=
  let d := natDigits n
  List.replicate (w - d.length) 48 ++ d

/-- `datetime.time.isoformat`: microseconds shown only when nonzero. -/
def isoTime (h mi s us : Nat) : Str :=
  pad' 2 h ++ [58] ++ pad' 2 mi ++ [58] ++ pad' 2 s ++
  (if us ≠ 0 then [46] ++ pad' 6 us else [])

def isoDate (y mo d : Nat) : Str :=
  pad' 4 y ++ [45] ++ pad' 2 mo ++ [45] ++ pad' 2 d

def isoOffset (m : Int) : Str :=
  (if m < 0 then [45] else [43]) ++ pad' 2 (m.natAbs / 60) ++ [58] ++ pad' 2 (m.natAbs % 60)

/-- `dump_datetime` (encoder.py lines 144-148): isoformat, with a trailing
    `+00:00` collapsed to `Z`. -/
def dump_datetime (y mo d h mi s us : Nat) (tz : Option Int) : Str :=
  let rv := isoDate y mo d ++ [84] ++ isoTime h mi s us ++
            (match tz with | some m => isoOffset m | none => [])
  if endsSeq rv (str2cp "+00:00") then rv.take (rv.length - 6) ++ [90] else rv

/-- `dump_key` (encoder.py lines 173-177). -/
def dump_key (k : Str) : Except Err Str :=
  if 0 < k.length ∧ k.all (fun c => key_chars.contains c) then .ok k
  else dump_str k false

def dottedKeys : List Str → Except Err Str
  | [] => .ok []
  | [k] => dump_key k
  | k :: rest =>
    match dump_key k, dottedKeys rest with
    | .ok a, .ok b => .ok (a ++ [46] ++ b)
    | .error e, _ => .error e
    | _, .error e => .error e

/-! The recursive dump functions.  `dump_array`/`dump_itable` build
`item + ", "` for every element and then strip one trailing `", "`, which for
these element lists is a comma-space join (the trailing separator is always
present after a nonempty loop); `dump_itable` of an empty table is `{  }`. -/

mutual

def dump_value (fuel : Nat) (v : Val) : Except Err Str :=
  match fuel with
  | 0 => .error .fuelOut
  | fuel + 1 =>
    match v with
    | .vstr s => dump_str s true
    | .vbool b => .ok (if b then str2cp "true" else str2cp "false")
    | .vint n => .ok (intToStr n)
    | .vfloat l => .ok (dump_float l)
    | .vdate y mo d => .ok (isoDate y mo d)
    | .vtime h mi s us => .ok (isoTime h mi s us)
    | .vdatetime y mo d h mi s us tz => .ok (dump_datetime y mo d h mi s us tz)
    | .varr _ es => dump_array fuel es
    | .vtable _ es => dump_itable fuel es

/-- `dump_array` (encoder.py lines 157-165). -/
def dump_array (fuel : Nat) (es : List Val) : Except Err Str :=
  match fuel with
  | 0 => .error .fuelOut
  | fuel + 1 =>
    if es.isEmpty then .ok (str2cp "[]")
    else
      match arrItems fuel es with
      | .error e => .error e
      | .ok body => .ok ([91] ++ body ++ [93])

def arrItems (fuel : Nat) (es : List Val) : Except Err Str :=
  match fuel with
  | 0 => .error .fuelOut
  | fuel + 1 =>
    match es with
    | [] => .ok []
    | [v] => dump_value fuel v
    | v :: rest =>
      match dump_value fuel v, arrItems fuel rest with
      | .ok a, .ok b => .ok (a ++ [44, 32] ++ b)
      | .error e, _ => .error e
      | _, .error e => .error e

/-- `dump_itable` (encoder.py lines 167-171). -/
def dump_itable (fuel : Nat) (es : List (Str × Val)) : Except Err Str :=
  match fuel with
  | 0 => .error .fuelOut
  | fuel + 1 =>
    match itItems fuel es with
    | .error e => .error e
    | .ok body => .ok ([123, 32] ++ body ++ [32, 125])

def itItems (fuel : Nat) (es : List (Str × Val)) : Except Err Str :=
  match fuel with
  | 0 => .error .fuelOut
  | fuel + 1 =>
    match es with
    | [] => .ok []
    | [(k, v)] =>
      match dump_key k, dump_value fuel v with
      | .ok dk, .ok dv => .ok (dk ++ str2cp " = " ++ dv)
      | .error e, _ => .error e
      | _, .error e => .error e
    | (k, v) :: rest =>
      match dump_key k, dump_value fuel v, itItems fuel rest with
      | .ok dk, .ok dv, .ok b => .ok (dk ++ str2cp " = " ++ dv ++ [44, 32] ++ b)
      | .error e, _, _ => .error e
      | _, .error e, _ => .error e
      | _, _, .error e => .error e

end

/-! `dump_sections` (encoder.py lines 197-240): header when `obj_name` is
nonempty and (some value is scalar-like, or this is a table-array element, or
the table is empty); then all scalar-like pairs, then all sub-tables, then
all table arrays, each section preceded by a blank line when output exists. -/

mutual

def dump_sections (fuel : Nat) (obj : Val) (obj_name : List Str) (tarray : Bool) :
    Except Err Str :=
  match fuel with
  | 0 => .error .fuelOut
  | fuel + 1 =>
    match obj with
    | .vtable _ es =>
      -- keys are all strings by construction; encodable_pairs = obj.items()
      let vlist := es.map (fun kv => kv.2)
      let hdr : Except Err Str :=
        if obj_name ≠ [] ∧ (vlist.any (fun v => is_scalar v true) ∨ tarray ∨ es.isEmpty) then
          match dottedKeys obj_name with
          | .error e => .error e
          | .ok dn =>
            .ok ((if tarray then [91, 91] else [91]) ++ dn ++
                 (if tarray then [93, 93, 10] else [93, 10]))
        else .ok []
      match hdr with
      | .error e => .error e
      | .ok rv =>
        match scalarPass fuel es rv with
        | .error e => .error e
        | .ok rv =>
          match dictPass fuel es obj_name rv with
          | .error e => .error e
          | .ok rv =>
            match listPass fuel es obj_name rv with
            | .error e => .error e
            | .ok rv =>
              -- the dumped-keys completeness check; every Val is scalar-like,
              -- a table, or an array, so it cannot fire here
              if es.any (fun kv => ¬ (is_scalar kv.2 true ∨ isTable kv.2 ∨ isArr kv.2)) then
                .error (.encodeError "got object of non-encodable type on key")
              else .ok rv
    | _ => .error .pyError  -- obj.keys() on a non-dict

def scalarPass (fuel : Nat) (es : List (Str × Val)) (rv : Str) : Except Err Str :=
  match fuel with
  | 0 => .error .fuelOut
  | fuel + 1 =>
    match es with
    | [] => .ok rv
    | (k, v) :: rest =>
      if is_scalar v true then
        match dump_key k, dump_value fuel v with
        | .ok dk, .ok dv => scalarPass fuel rest (rv ++ dk ++ str2cp " = " ++ dv ++ [10])
        | .error e, _ => .error e
        | _, .error e => .error e
      else scalarPass fuel rest rv

def dictPass (fuel : Nat) (es : List (Str × Val)) (obj_name : List Str) (rv : Str) :
    Except Err Str :=
  match fuel with
  | 0 => .error .fuelOut
  | fuel + 1 =>
    match es with
    | [] => .ok rv
    | (k, v) :: rest =>
      match v with
      | .vtable a b =>
        let rv := if 0 < rv.length then rv ++ [10] else rv
        match dump_sections fuel (.vtable a b) (obj_name ++ [k]) false with
        | .error e => .error e
        | .ok sub => dictPass fuel rest obj_name (rv ++ sub)
      | _ => dictPass fuel rest obj_name rv

def listPass (fuel : Nat) (es : List (Str × Val)) (obj_name : List Str) (rv : Str) :
    Except Err Str :=
  match fuel with
  | 0 => .error .fuelOut
  | fuel + 1 =>
    match es with
    | [] => .ok rv
    | (k, v) :: rest =>
      match v with
      | .varr a elems =>
        if ¬ is_scalar (.varr a elems) true then
          match elemsLoop fuel elems (obj_name ++ [k]) rv with
          | .error e => .error e
          | .ok rv => listPass fuel rest obj_name (rv ++ [10])
        else listPass fuel rest obj_name rv
      | _ => listPass fuel rest obj_name rv

def elemsLoop (fuel : Nat) (elems : List Val) (obj_name : List Str) (rv : Str) :
    Except Err Str :=
  match fuel with
  | 0 => .error .fuelOut
  | fuel + 1 =>
    match elems with
    | [] => .ok rv
    | ent :: rest =>
      let rv := if 0 < rv.length then rv ++ [10] else rv
      match dump_sections fuel ent obj_name true with
      | .error e => .error e
      | .ok sub => elemsLoop fuel rest obj_name (rv ++ sub)

end

mutual

def sizeV : Val → Nat
  | .varr _ es => sizeVL es + 1
  | .vtable _ es => sizeVE es + 1
  | _ => 1

def sizeVL : List Val → Nat
  | [] => 1
  | v :: t => sizeV v + sizeVL t + 1

def sizeVE : List (Str × Val) → Nat
  | [] => 1
  | (_, v) :: t => sizeV v + sizeVE t + 1

end

/-- `TOMLEncoder.encode` (encoder.py lines 32-34): `_get_encodable_object` is
    the identity on `Val`, then `dump_sections(o, [], False)`.  `sizeV`
    comfortably bounds the recursion depth. -/
def encode (obj : Val) : Except Err Str :=
  dump_sections (sizeV obj) obj [] false

/-! ## Claim theorems: concrete decode/encode behaviour -/

/-- C1: the claim says `a = [1, "x"]` raises a decode error "array of mixed
    type".  The decoder's `parse_array` contains no element-tag check at all:
    the document decodes successfully to the mixed array `[1, "x"]`. -/
theorem c1_mixed_array_decodes :
    loadsP (str2cp "a = [1, \"x\"]\n") =
      .ok (.ptable [([97], .parr [.pint 1, .pstr [120]])]) := by
  have key : ∀ x : Except Err PVal,
      (match x with
       | .ok (.ptable [([97], .parr [.pint 1, .pstr [120]])]) => true
       | _ => false) = true →
      x = .ok (.ptable [([97], .parr [.pint 1, .pstr [120]])]) := by
    intro x h
    split at h
    · rfl
    · exact absurd h (by simp)
  exact key _ (by decide!)

/-- C2: the round-trip fails on U+007F (DEL).  `a = "\u007f"` decodes to the
    table `{a: "\x7f"}`; the encoder treats DEL as printable (its control
    test is `ord(i) < 32`) and emits the raw string `a = '\x7f'` with a
    literal DEL; decoding that output fails, because the decoder's control
    set includes U+007F. -/
theorem c2_roundtrip_broken_on_del :
    loads (str2cp "a = \"\\u007f\"\n") = .ok (.vtable 0 [([97], .vstr [127])]) ∧
    encode (.vtable 0 [([97], .vstr [127])]) =
      .ok (str2cp "a = '" ++ [127] ++ str2cp "'\n") ∧
    loadsP (str2cp "a = '" ++ [127] ++ str2cp "'\n") =
      .error (.decodeError "unescaped control character in string") := by
  refine ⟨?_, ?_, ?_⟩
  · have key : ∀ x : Except Err Val,
        (match x with
         | .ok (.vtable 0 [([97], .vstr [127])]) => true
         | _ => false) = true →
        x = .ok (.vtable 0 [([97], .vstr [127])]) := by
      intro x h
      split at h
      · rfl
      · exact absurd h (by simp)
    exact key _ (by decide!)
  · have key : ∀ x : Except Err Str,
        (match x with
         | .ok [97, 32, 61, 32, 39, 127, 39, 10] => true
         | _ => false) = true →
        x = .ok [97, 32, 61, 32, 39, 127, 39, 10] := by
      intro x h
      split at h
      · rfl
      · exact absurd h (by simp)
    exact key _ (by decide!)
  · have key : ∀ x : Except Err PVal,
        (match x with
         | .error (.decodeError "unescaped control character in string") => true
         | _ => false) = true →
        x = .error (.decodeError "unescaped control character in string") := by
      intro x h
      split at h
      · rfl
      · exact absurd h (by simp)
    exact key _ (by decide!)

/-- C3: the claim says every `\uXXXX` escape in U+D800..U+DFFF inclusive is
    rejected.  The code's test is `iv > 0xd800` (strict), so `\ud800` itself
    is accepted and decodes to a lone-surrogate string, while `\ud801` is
    rejected as the claim describes. -/
theorem c3_surrogate_d800_accepted :
    loadsP (str2cp "k = \"\\ud800\"\n") = .ok (.ptable [([107], .pstr [55296])]) ∧
    loadsP (str2cp "k = \"\\ud801\"\n") =
      .error (.decodeError "non-scalar unicode escape") := by
  constructor
  · have key : ∀ x : Except Err PVal,
        (match x with
         | .ok (.ptable [([107], .pstr [55296])]) => true
         | _ => false) = true →
        x = .ok (.ptable [([107], .pstr [55296])]) := by
      intro x h
      split at h
      · rfl
      · exact absurd h (by simp)
    exact key _ (by decide!)
  · have key : ∀ x : Except Err PVal,
        (match x with
         | .error (.decodeError "non-scalar unicode escape") => true
         | _ => false) = true →
        x = .error (.decodeError "non-scalar unicode escape") := by
      intro x h
      split at h
      · rfl
      · exact absurd h (by simp)
    exact key _ (by decide!)

/-- C4: a second `[a]` header after `[a]` is a decode error (duplicated
    table), while `[a]` after `[a.b]` — where `a` was only created
    implicitly — is accepted, and the later pair lands in `a`. -/
theorem c4_table_redefinition :
    loadsP (str2cp "[a]\nx = 1\n[a]\ny = 2\n") =
      .error (.decodeError "duplicated table") ∧
    loadsP (str2cp "[a.b]\nx = 1\n[a]\ny = 2\n") =
      .ok (.ptable [([97], .ptable [([98], .ptable [([120], .pint 1)]),
                                    ([121], .pint 2)])]) := by
  constructor
  · have key : ∀ x : Except Err PVal,
        (match x with
         | .error (.decodeError "duplicated table") => true
         | _ => false) = true →
        x = .error (.decodeError "duplicated table") := by
      intro x h
      split at h
      · rfl
      · exact absurd h (by simp)
    exact key _ (by decide!)
  · have key : ∀ x : Except Err PVal,
        (match x with
         | .ok (.ptable [([97], .ptable [([98], .ptable [([120], .pint 1)]),
                                         ([121], .pint 2)])]) => true
         | _ => false) = true →
        x = .ok (.ptable [([97], .ptable [([98], .ptable [([120], .pint 1)]),
                                          ([121], .pint 2)])]) := by
      intro x h
      split at h
      · rfl
      · exact absurd h (by simp)
    exact key _ (by decide!)

/-- C5: after the top-level pair `a = [1, 2]`, a later `[[a]]` raises the
    decode error "appended to statically defined array" instead of appending;
    without the preceding inline binding, `[[a]]` succeeds and creates a
    one-element table array. -/
theorem c5_static_array_extension_rejected :
    loadsP (str2cp "a = [1, 2]\n[[a]]\n") =
      .error (.decodeError "appended to statically defined array") ∧
    loadsP (str2cp "[[a]]\n") = .ok (.ptable [([97], .parr [.ptable []])]) := by
  constructor
  · have key : ∀ x : Except Err PVal,
        (match x with
         | .error (.decodeError "appended to statically defined array") => true
         | _ => false) = true →
        x = .error (.decodeError "appended to statically defined array") := by
      intro x h
      split at h
      · rfl
      · exact absurd h (by simp)
    exact key _ (by decide!)
  · have key : ∀ x : Except Err PVal,
        (match x with
         | .ok (.ptable [([97], .parr [.ptable []])]) => true
         | _ => false) = true →
        x = .ok (.ptable [([97], .parr [.ptable []])]) := by
      intro x h
      split at h
      · rfl
      · exact absurd h (by simp)
    exact key _ (by decide!)

/-- C6: the escaped-delimiter backtrack: `s = """a\""""` decodes successfully,
    with `s` bound to the two-character string `a"` (code points 97, 34). -/
theorem c6_escaped_delimiter_backtrack :
    loadsP (str2cp "s = \"\"\"a\\\"\"\"\"\n") =
      .ok (.ptable [([115], .pstr [97, 34])]) := by
  have key : ∀ x : Except Err PVal,
      (match x with
       | .ok (.ptable [([115], .pstr [97, 34])]) => true
       | _ => false) = true →
      x = .ok (.ptable [([115], .pstr [97, 34])]) := by
    intro x h
    split at h
    · rfl
    · exact absurd h (by simp)
  exact key _ (by decide!)

/-! ## C10: encoder classification of arrays -/

mutual

/-- Under `can_tarray = False` every non-table value is scalar-like: scalars
    trivially; arrays because an empty or scalar-containing array is, and a
    table-containing array is forced scalar by the `not can_tarray` clause,
    and a nonempty array of arrays reduces to one of those cases. -/
theorem is_scalar_false_eq : ∀ v : Val, is_scalar v false = !(isTable v)
  | .vstr _ => rfl
  | .vint _ => rfl
  | .vfloat _ => rfl
  | .vbool _ => rfl
  | .vdate _ _ _ => rfl
  | .vtime _ _ _ _ => rfl
  | .vdatetime _ _ _ _ _ _ _ _ => rfl
  | .vtable _ _ => rfl
  | .varr i es => by
    show is_scalar (.varr i es) false = true
    rw [is_scalar]
    by_cases he : es.isEmpty
    · simp [he]
    · simp only [he, if_false]
      rw [anyScalarNT_eq es]
      by_cases ha : es.any (fun v => !isTable v)
      · simp [ha]
      · simp only [ha, if_false]
        have hne : es ≠ [] := by
          intro h
          subst h
          simp at he
        have : es.any isTable = true := by
          cases es with
          | nil => exact absurd rfl hne
          | cons x t =>
            simp only [List.any_cons, Bool.or_eq_true]
            by_cases hx : isTable x
            · exact Or.inl hx
            · exfalso
              apply ha
              simp only [List.any_cons, Bool.or_eq_true]
              exact Or.inl (by simp [hx])
        simp [this]

theorem anyScalarNT_eq : ∀ es : List Val, anyScalarNT es = es.any (fun v => !isTable v)
  | [] => rfl
  | v :: t => by
    rw [anyScalarNT, is_scalar_false_eq v, anyScalarNT_eq t, List.any_cons]

end

/-- The encoder's array classification with `can_tarray = True`: scalar-like
    iff empty or some direct element is not a table. -/
theorem is_scalar_arr_eq (i : Nat) (es : List Val) :
    is_scalar (.varr i es) true = (es.isEmpty || es.any (fun v => !isTable v)) := by
  rw [is_scalar]
  by_cases he : es.isEmpty
  · simp [he]
  · simp only [he, if_false, Bool.false_or]
    rw [anyScalarNT_eq es]
    by_cases ha : es.any (fun v => !isTable v)
    · simp [ha]
    · simp [ha]

/-- C10: a non-empty array with at least one scalar-like direct element is
    classified scalar-like even when other direct elements are tables, and is
    emitted inline — tables rendered as inline tables — without an encode
    error; an array is classified non-scalar (hence emitted as repeated
    `[[section]]` headers by `dump_sections`) exactly when it is non-empty
    with all direct elements tables.  The two concrete conjuncts show the
    mixed array `[1, {b = 2}]` emitted inline and the all-table array emitted
    as `[[t]]` sections. -/
theorem c10_array_classification :
    (∀ (i : Nat) (es : List Val), es ≠ [] →
      (∃ v ∈ es, is_scalar v true = true) → is_scalar (.varr i es) true = true) ∧
    (∀ (i : Nat) (es : List Val),
      is_scalar (.varr i es) true = false ↔
        es ≠ [] ∧ ∀ v ∈ es, isTable v = true) ∧
    encode (.vtable 0 [([97], .varr 1 [.vint 1, .vtable 2 [([98], .vint 2)]])]) =
      .ok (str2cp "a = [1, { b = 2 }]\n") ∧
    encode (.vtable 0 [([116], .varr 1 [.vtable 2 [([118], .vint 1)],
                                        .vtable 3 [([118], .vint 2)]])]) =
      .ok (str2cp "[[t]]\nv = 1\n\n[[t]]\nv = 2\n\n") := by
  refine ⟨?_, ?_, ?_, ?_⟩
  · intro i es _ ⟨v, hv, hsc⟩
    rw [is_scalar_arr_eq]
    have hnt : isTable v = false := by
      cases v <;> first
        | rfl
        | exact absurd hsc (by simp [is_scalar])
    have : es.any (fun w => !isTable w) = true := by
      rw [List.any_eq_true]
      exact ⟨v, hv, by simp [hnt]⟩
    simp [this]
  · intro i es
    rw [is_scalar_arr_eq]
    constructor
    · intro h
      rw [Bool.or_eq_false_iff] at h
      obtain ⟨h1, h2⟩ := h
      refine ⟨by simpa using h1, ?_⟩
      intro v hv
      have := (List.any_eq_false).mp h2 v hv
      simpa using this
    · intro ⟨h1, h2⟩
      rw [Bool.or_eq_false_iff]
      refine ⟨by simpa using h1, ?_⟩
      rw [List.any_eq_false]
      intro v hv
      simp [h2 v hv]
  · have key : ∀ x : Except Err Str,
        (match x with
         | .ok s => s == str2cp "a = [1, { b = 2 }]\n"
         | .error _ => false) = true →
        x = .ok (str2cp "a = [1, { b = 2 }]\n") := by
      intro x h
      cases x with
      | ok s =>
        simp only [] at h
        rw [eq_of_beq h]
      | error e => exact absurd h (by simp)
    exact key _ (by decide!)
  · have key : ∀ x : Except Err Str,
        (match x with
         | .ok s => s == str2cp "[[t]]\nv = 1\n\n[[t]]\nv = 2\n\n"
         | .error _ => false) = true →
        x = .ok (str2cp "[[t]]\nv = 1\n\n[[t]]\nv = 2\n\n") := by
      intro x h
      cases x with
      | ok s =>
        simp only [] at h
        rw [eq_of_beq h]
      | error e => exact absurd h (by simp)
    exact key _ (by decide!)

/-- Witness for C10 at concrete inputs: the mixed array `[1, {}]` is
    scalar-like, and the all-table array `[{}]` is not. -/
theorem c10_array_classification_witness :
    is_scalar (.varr 1 [.vint 1, .vtable 2 []]) true = true ∧
    (is_scalar (.varr 1 [.vtable 2 []]) true = false ↔
      ([Val.vtable 2 []] ≠ [] ∧ ∀ v ∈ [Val.vtable 2 []], isTable v = true)) :=
  ⟨c10_array_classification.1 1 [.vint 1, .vtable 2 []] (by simp)
      ⟨.vint 1, by simp, rfl⟩,
   c10_array_classification.2.1 1 [.vtable 2 []]⟩

/-! ## C9: the header-emission rule of dump_sections

We characterise "emits a header line" observably: the produced text begins
with the header line `[P]` (or `[[P]]`) for this call's path.  `begins s pre`
is Boolean prefix testing. -/

def begins : Str → Str → Bool
  | _, [] => true
  | [], _ :: _ => false
  | c :: s, d :: pre => c = d && begins s pre

theorem begins_append_self (pre b : Str) : begins (pre ++ b) pre = true := by
  induction pre with
  | nil => cases b <;> rfl
  | cons c t ih => simpa [begins] using ih

theorem begins_nil_false (d : Nat) (pre : Str) : begins [] (d :: pre) = false := rfl

theorem begins_append_mismatch (A z w : Str) (x y : Nat) (hxy : x ≠ y) :
    begins (A ++ x :: z) (A ++ y :: w) = false := by
  induction A with
  | nil => simp [begins, hxy]
  | cons c t ih => simpa [begins] using ih

theorem begins_iff_take (s pre : Str) :
    begins s pre = true ↔ s.take pre.length = pre := by
  induction pre generalizing s with
  | nil => simp [begins]
  | cons d pre ih =>
    cases s with
    | nil => simp [begins]
    | cons c s =>
      simp only [begins, Bool.and_eq_true, decide_eq_true_eq, List.length_cons,
        List.take_succ_cons, List.cons.injEq, ih]

/-- A line: nonempty, ends in a newline, and contains no interior newline. -/
def LineShape (h : Str) : Prop :=
  ∃ h₀, h = h₀ ++ [10] ∧ (10 : Nat) ∉ h₀

/-- Once a nonempty newline-terminated prefix that does not begin with the
    line `h` exists, no extension begins with `h` either: a shorter `h` would
    be a prefix of `a`, and a longer one would contain `a`'s trailing newline
    in its interior. -/
theorem begins_append_line (a b h : Str) (hline : LineShape h)
    (hnl : a.getLast? = some 10) (hnb : begins a h = false) :
    begins (a ++ b) h = false := by
  obtain ⟨h₀, rfl, h₀free⟩ := hline
  by_contra hcon
  rw [Bool.not_eq_false, begins_iff_take] at hcon
  by_cases hlen : (h₀ ++ [10]).length ≤ a.length
  · -- h would already be a prefix of a
    rw [Bool.eq_false_iff] at hnb
    apply hnb
    rw [begins_iff_take]
    rw [List.take_append_of_le_length hlen] at hcon
    exact hcon
  · -- a is a proper prefix of h, so h has an interior newline
    push_neg at hlen
    have halen : a.length ≤ h₀.length := by
      simp only [List.length_append, List.length_cons, List.length_nil] at hlen
      omega
    have h1 : a = h₀.take a.length := by
      have t2 := congrArg (List.take a.length) hcon
      rw [List.take_take, Nat.min_eq_left (le_of_lt hlen)] at t2
      rw [List.take_append_of_le_length halen] at t2
      rw [List.take_left' rfl] at t2
      exact t2
    have h10a : (10 : Nat) ∈ a := List.mem_of_getLast?_eq_some hnl
    exact h₀free (List.take_subset a.length h₀ (h1 ▸ h10a))

theorem findSeqAux_mem (s : Str) (c : Nat) :
    ∀ fuel i j, findSeqAux s [c] fuel i = some j → c ∈ s := by
  intro fuel
  induction fuel with
  | zero => intro i j h; exact absurd h (by simp [findSeqAux])
  | succ fuel ih =>
    intro i j h
    rw [findSeqAux] at h
    split at h
    · exact absurd h (by simp)
    · split at h
      next heq =>
        have hc : c ∈ (s.drop i).take [c].length := by rw [heq]; simp
        exact List.mem_of_mem_drop (List.mem_of_mem_take hc)
      next => exact ih _ _ h

theorem hasSeq_singleton_mem (s : Str) (c : Nat) (h : hasSeq s [c] = true) : c ∈ s := by
  unfold hasSeq findSeq at h
  rw [Option.isSome_iff_exists] at h
  obtain ⟨j, hj⟩ := h
  exact findSeqAux_mem s c _ _ _ hj

theorem escapeOut_no_nl (c : Nat) (e : Str) (h : escapeOut c = some e) : (10 : Nat) ∉ e := by
  unfold escapeOut at h
  split_ifs at h <;>
    first
      | (simp only [Option.some.injEq] at h; subst h; decide)
      | simp at h

theorem hexChar_ne_nl (n : Nat) : hexChar n ≠ 10 := by
  unfold hexChar
  split_ifs <;> omega

theorem hex4_no_nl (n : Nat) : (10 : Nat) ∉ hex4 n := by
  intro h
  unfold hex4 at h
  simp only [List.mem_cons, List.not_mem_nil, or_false] at h
  rcases h with h | h | h | h <;> exact hexChar_ne_nl _ h.symm

theorem bstrChunk_no_nl (p : Nat × Nat) :
    (10 : Nat) ∉ (if p.2 < 32 ∨ p.2 = 92 ∨ p.2 = 34 then
      if p.2 = 10 ∧ false ∧ p.1 ≠ 0 then [p.2]
      else match escapeOut p.2 with
           | some e => e
           | none => [92, 117] ++ hex4 p.2
    else [p.2]) := by
  intro hx
  split at hx
  · rw [if_neg (by simp)] at hx
    revert hx
    split
    next e he => exact fun hx => escapeOut_no_nl _ _ he hx
    next =>
      intro hx
      simp only [List.cons_append, List.mem_cons] at hx
      rcases hx with h | h | h
      · omega
      · omega
      · simp only [List.nil_append] at h
        exact hex4_no_nl _ h
  next hcond =>
    simp only [List.mem_singleton] at hx
    exact hcond (Or.inl (by omega))

theorem dump_bstr_no_nl (s : Str) : (10 : Nat) ∉ dump_bstr s false := by
  intro hmem
  unfold dump_bstr at hmem
  simp only [List.append_assoc, List.mem_append, List.mem_flatMap, List.mem_singleton] at hmem
  rcases hmem with h | ⟨ni, _, hx⟩ | h
  · exact absurd h (by simp)
  · exact bstrChunk_no_nl ni hx
  · simp at h

theorem mem_of_contains_true (l : Str) (c : Nat) (h : l.contains c = true) : c ∈ l := by
  simpa [List.contains, List.elem_eq_mem] using h

theorem contains_true_of_mem (l : Str) (c : Nat) (h : c ∈ l) : l.contains c = true := by
  simpa [List.contains, List.elem_eq_mem] using h

/-- `dump_key` always succeeds, and its output is nonempty, does not start
    with `[` or `]`, and contains no newline. -/
theorem dump_key_facts (k : Str) :
    ∃ dk, dump_key k = .ok dk ∧ dk ≠ [] ∧ dk.head? ≠ some 91 ∧
      dk.head? ≠ some 93 ∧ (10 : Nat) ∉ dk := by
  unfold dump_key
  split
  next hbare =>
    obtain ⟨hpos, hall⟩ := hbare
    rw [List.all_eq_true] at hall
    have hmem : ∀ c ∈ k, c ∈ key_chars := by
      intro c hc
      exact mem_of_contains_true _ _ (by simpa using hall c hc)
    refine ⟨k, rfl, by intro h; subst h; simp at hpos, ?_, ?_, ?_⟩
    · intro h
      cases k with
      | nil => simp at hpos
      | cons c t =>
        simp only [List.head?_cons, Option.some.injEq] at h
        subst h
        exact absurd (hmem 91 (by simp)) (by decide)
    · intro h
      cases k with
      | nil => simp at hpos
      | cons c t =>
        simp only [List.head?_cons, Option.some.injEq] at h
        subst h
        exact absurd (hmem 93 (by simp)) (by decide)
    · intro h
      exact absurd (hmem 10 h) (by decide)
  next =>
    simp only [dump_str]
    split
    next =>
      refine ⟨_, rfl, ?_, ?_, ?_, ?_⟩
      · unfold dump_bstr; simp
      · unfold dump_bstr; simp
      · unfold dump_bstr; simp
      · have : ((k.drop 1).contains 10 && false) = false := by simp
        rw [this]
        exact dump_bstr_no_nl k
    next hcond =>
      push_neg at hcond
      obtain ⟨h1, _, _, h4, h5, _⟩ := hcond
      have hmulti : (k.drop 1).contains 10 = false := by
        by_contra hm
        rw [Bool.not_eq_false] at hm
        exact absurd (h4 hm) (by simp)
      unfold dump_rawstr
      rw [hmulti]
      have hq : k.contains 39 = false := by
        by_contra hqq
        rw [Bool.not_eq_false] at hqq
        rw [h1 hqq] at hmulti
        exact absurd hmulti (by simp)
      have hseq : hasSeq k [39] = false := by
        by_contra hs
        rw [Bool.not_eq_false] at hs
        have := contains_true_of_mem k 39 (hasSeq_singleton_mem k 39 hs)
        rw [hq] at this
        exact absurd this (by simp)
      rw [if_neg (by simp [hseq])]
      refine ⟨39 :: k ++ [39], rfl, by simp, by simp, by simp, ?_⟩
      intro hmem
      simp only [List.cons_append, List.mem_cons, List.mem_append, List.mem_singleton] at hmem
      rcases hmem with h | h | h
      · omega
      · cases k with
        | nil => simp at h
        | cons c t =>
          simp only [List.mem_cons] at h
          rcases h with h | h
          · exact h5 (by simp [h])
          · have ht : t.contains 10 = true :=
              contains_true_of_mem t 10 h
            simp only [List.drop_one, List.tail_cons] at hmulti
            rw [hmulti] at ht
            exact absurd ht (by simp)
      · simp at h

/-- `dottedKeys` always succeeds; its output has no newline, and for a
    nonempty path it is nonempty and starts with neither `[` nor `]`. -/
theorem dottedKeys_facts : ∀ name : List Str,
    ∃ dn, dottedKeys name = .ok dn ∧ (10 : Nat) ∉ dn ∧
      (name ≠ [] → dn ≠ [] ∧ dn.head? ≠ some 91 ∧ dn.head? ≠ some 93)
  | [] => ⟨[], rfl, by simp, by simp⟩
  | [k] => by
    obtain ⟨dk, hk, h1, h2, h3, h4⟩ := dump_key_facts k
    exact ⟨dk, by simpa [dottedKeys] using hk, h4, fun _ => ⟨h1, h2, h3⟩⟩
  | k :: k2 :: rest => by
    obtain ⟨dk, hk, hk1, hk2, hk3, hk4⟩ := dump_key_facts k
    obtain ⟨dt, ht, ht1, _⟩ := dottedKeys_facts (k2 :: rest)
    refine ⟨dk ++ 46 :: dt, ?_, ?_, fun _ => ⟨by simp [hk1], ?_, ?_⟩⟩
    · show (match dump_key k, dottedKeys (k2 :: rest) with
            | .ok a, .ok b => .ok (a ++ [46] ++ b)
            | .error e, _ => .error e
            | _, .error e => .error e) = Except.ok (dk ++ 46 :: dt)
      rw [hk, ht]
      simp
    · intro hm
      simp only [List.mem_append, List.mem_cons] at hm
      rcases hm with h | h | h
      · exact hk4 h
      · omega
      · exact ht1 h
    · cases dk with
      | nil => exact absurd rfl hk1
      | cons c t => simpa using hk2
    · cases dk with
      | nil => exact absurd rfl hk1
      | cons c t => simpa using hk3

/-- Splitting `dottedKeys` over an append of nonempty paths. -/
theorem dottedKeys_append : ∀ (name r : List Str) (dn dr : Str),
    name ≠ [] → r ≠ [] → dottedKeys name = .ok dn → dottedKeys r = .ok dr →
    dottedKeys (name ++ r) = .ok (dn ++ 46 :: dr)
  | [], _, _, _, h, _, _, _ => absurd rfl h
  | [k], r, dn, dr, _, hr, hn, hrr => by
    cases r with
    | nil => exact absurd rfl hr
    | cons r0 rt =>
      have : dump_key k = .ok dn := by simpa [dottedKeys] using hn
      show (match dump_key k, dottedKeys (r0 :: rt) with
            | .ok a, .ok b => .ok (a ++ [46] ++ b)
            | .error e, _ => .error e
            | _, .error e => .error e) = Except.ok (dn ++ 46 :: dr)
      rw [this, hrr]
      simp
  | k :: k2 :: rest, r, dn, dr, _, hr, hn, hrr => by
    cases r with
    | nil => exact absurd rfl hr
    | cons r0 rt =>
      have hn' : (match dump_key k, dottedKeys (k2 :: rest) with
                  | .ok a, .ok b => Except.ok (a ++ [46] ++ b)
                  | .error e, _ => .error e
                  | _, .error e => .error e) = Except.ok dn := hn
      revert hn'
      cases hk : dump_key k with
      | error e => intro hn'; simp at hn'
      | ok dk =>
        cases ht : dottedKeys (k2 :: rest) with
        | error e => intro hn'; simp at hn'
        | ok dt =>
          intro hn'
          simp only [Except.ok.injEq] at hn'
          have ih := dottedKeys_append (k2 :: rest) (r0 :: rt) dt dr (by simp) hr ht hrr
          show (match dump_key k, dottedKeys (k2 :: rest ++ r0 :: rt) with
                | .ok a, .ok b => Except.ok (a ++ [46] ++ b)
                | .error e, _ => .error e
                | _, .error e => .error e) = Except.ok (dn ++ 46 :: dr)
          rw [hk, ih]
          simp [← hn']

/-- The header line `[P]\n` (or `[[P]]\n`) that `dump_sections` emits for
    path `P` (encoder.py lines 207-211).  `dottedKeys` never fails
    (`dump_key_facts`), so the default branch is unreachable. -/
def headerStr (name : List Str) (tarray : Bool) : Str :=
  match dottedKeys name with
  | .ok dn => (if tarray then [91, 91] else [91]) ++ dn ++
              (if tarray then [93, 93, 10] else [93, 10])
  | .error _ => []

theorem headerStr_eq (name : List Str) (tb : Bool) (dn : Str)
    (h : dottedKeys name = .ok dn) :
    headerStr name tb = (if tb then [91, 91] else [91]) ++ dn ++
                        (if tb then [93, 93, 10] else [93, 10]) := by
  unfold headerStr
  rw [h]

theorem headerStr_line (name : List Str) (tb : Bool) : LineShape (headerStr name tb) := by
  obtain ⟨dn, hdn, hnl, _⟩ := dottedKeys_facts name
  rw [headerStr_eq name tb dn hdn]
  cases tb
  · exact ⟨91 :: dn ++ [93], by simp, by
      intro h
      simp only [List.cons_append, List.mem_cons, List.mem_append,
        List.not_mem_nil, or_false] at h
      rcases h with h | h | h
      · omega
      · exact hnl h
      · omega⟩
  · exact ⟨91 :: 91 :: dn ++ [93, 93], by simp, by
      intro h
      simp only [List.cons_append, List.mem_cons, List.mem_append,
        List.mem_cons, List.not_mem_nil, or_false] at h
      rcases h with h | h | h | h | h
      · omega
      · omega
      · exact hnl h
      · omega
      · omega⟩

theorem headerStr_head (name : List Str) (tb : Bool) :
    ∃ t, headerStr name tb = 91 :: t := by
  obtain ⟨dn, hdn, _, _⟩ := dottedKeys_facts name
  rw [headerStr_eq name tb dn hdn]
  cases tb <;> exact ⟨_, rfl⟩

theorem begins_of_eq_append (own H A z w : Str) (x y : Nat) (hxy : x ≠ y)
    (ho : own = A ++ x :: z) (hh : H = A ++ y :: w) : begins own H = false := by
  rw [ho, hh]
  exact begins_append_mismatch A z w x y hxy

/-- A header for a strictly longer path (together with anything following it)
    never begins with the header for a shorter path: the two header lines
    first differ within the brackets or at the `.` separating the extra key
    segments. -/
theorem header_mismatch (name r : List Str) (t' tb : Bool) (rest : Str)
    (hr : r ≠ []) :
    begins (headerStr (name ++ r) t' ++ rest) (headerStr name tb) = false := by
  obtain ⟨dn, hdn, _, hdnne⟩ := dottedKeys_facts name
  obtain ⟨dr, hdr, _, hdrne⟩ := dottedKeys_facts r
  obtain ⟨h1, h2, h3⟩ := hdrne hr
  cases dr with
  | nil => exact absurd rfl h1
  | cons d0 dt =>
    have hd91 : d0 ≠ 91 := by simpa using h2
    have hd93 : d0 ≠ 93 := by simpa using h3
    by_cases hname : name = []
    · subst hname
      have hdn0 : dn = [] := by
        have h0 : dottedKeys [] = Except.ok ([] : Str) := rfl
        rw [h0] at hdn
        exact ((Except.ok.injEq _ _).mp hdn.symm)
      subst hdn0
      have hq : dottedKeys ([] ++ r) = .ok (d0 :: dt) := by simpa using hdr
      rw [headerStr_eq _ t' _ hq, headerStr_eq _ tb _ hdn]
      cases tb <;> cases t'
      · exact begins_of_eq_append _ _ [91] (dt ++ 93 :: 10 :: rest) [10] d0 93 hd93
          (by simp) (by simp)
      · exact begins_of_eq_append _ _ [91] (d0 :: (dt ++ 93 :: 93 :: 10 :: rest)) [10]
          91 93 (by omega) (by simp) (by simp)
      · exact begins_of_eq_append _ _ [91] (dt ++ 93 :: 10 :: rest) [93, 93, 10] d0 91
          hd91 (by simp) (by simp)
      · exact begins_of_eq_append _ _ [91, 91] (dt ++ 93 :: 93 :: 10 :: rest) [93, 10]
          d0 93 hd93 (by simp) (by simp)
    · obtain ⟨hn1, hn2, hn3⟩ := hdnne hname
      cases dn with
      | nil => exact absurd rfl hn1
      | cons dn0 dnt =>
        have hdn91 : dn0 ≠ 91 := by simpa using hn2
        have hq := dottedKeys_append name r (dn0 :: dnt) (d0 :: dt) hname hr hdn hdr
        rw [headerStr_eq _ t' _ hq, headerStr_eq _ tb _ hdn]
        cases tb <;> cases t'
        · exact begins_of_eq_append _ _ (91 :: dn0 :: dnt)
            (d0 :: (dt ++ 93 :: 10 :: rest)) [10] 46 93 (by omega)
            (by simp) (by simp)
        · exact begins_of_eq_append _ _ [91]
            (dn0 :: (dnt ++ 46 :: d0 :: (dt ++ 93 :: 93 :: 10 :: rest)))
            (dnt ++ [93, 10]) 91 dn0 (fun h => hdn91 h.symm)
            (by simp) (by simp)
        · exact begins_of_eq_append _ _ [91]
            (dnt ++ 46 :: d0 :: (dt ++ 93 :: 10 :: rest))
            (dn0 :: (dnt ++ [93, 93, 10])) dn0 91 hdn91 (by simp) (by simp)
        · exact begins_of_eq_append _ _ (91 :: 91 :: dn0 :: dnt)
            (d0 :: (dt ++ 93 :: 93 :: 10 :: rest)) [93, 10] 46 93
            (by omega) (by simp) (by simp)

theorem headerStr_begins_nil (name : List Str) (tb : Bool) :
    begins [] (headerStr name tb) = false := by
  obtain ⟨t, ht⟩ := headerStr_head name tb
  rw [ht]
  rfl

theorem headerStr_last (name : List Str) (tb : Bool) :
    (headerStr name tb).getLast? = some 10 := by
  obtain ⟨h₀, hh, _⟩ := headerStr_line name tb
  rw [hh]
  exact List.getLast?_concat _

theorem headerStr_head? (name : List Str) (tb : Bool) :
    (headerStr name tb).head? = some 91 := by
  obtain ⟨t, ht⟩ := headerStr_head name tb
  rw [ht]
  rfl

/-- `name` is a strict (proper) prefix path of `q`. -/
def StrictPref (name q : List Str) : Prop := ∃ r, r ≠ [] ∧ q = name ++ r

theorem strictPref_snoc (name q : List Str) (k : Str)
    (h : StrictPref name q ∨ name = q) : StrictPref name (q ++ [k]) := by
  rcases h with ⟨r, hr, rfl⟩ | rfl
  · exact ⟨r ++ [k], by simp, by simp⟩
  · exact ⟨[k], by simp, rfl⟩

/-- The header-emission condition of `dump_sections` (encoder.py line 207). -/
def Cond (q : List Str) (es : List (Str × Val)) (tarray : Bool) : Prop :=
  q ≠ [] ∧ (((es.map fun kv => kv.2).any fun v => is_scalar v true) = true ∨
            tarray = true ∨ es.isEmpty = true)

/-- Appending any block to accumulated output that already fails to begin
    with the line `H` cannot make it begin with `H`; when the accumulator is
    empty the block itself must not begin with `H`. -/
theorem acc_append (rv B H : Str) (hline : LineShape H)
    (hinv : rv = [] ∨ rv.getLast? = some 10)
    (hfree : begins rv H = false)
    (hB : rv = [] → begins B H = false) :
    begins (rv ++ B) H = false := by
  rcases hinv with rfl | hlast
  · simpa using hB rfl
  · exact begins_append_line rv B H hline hlast hfree

theorem inv_append (rv B : Str) (hinv : rv = [] ∨ rv.getLast? = some 10)
    (hB : B = [] ∨ B.getLast? = some 10) :
    rv ++ B = [] ∨ (rv ++ B).getLast? = some 10 := by
  rcases hB with rfl | hB
  · simpa using hinv
  · right
    rw [List.getLast?_append, hB]
    rfl

theorem begins_head_ne (s H : Str) (c d : Nat) (u : Str)
    (hs : s.head? = some c) (hH : H = d :: u) (hne : c ≠ d) :
    begins s H = false := by
  cases s with
  | nil => simp at hs
  | cons a b =>
    simp only [List.head?_cons, Option.some.injEq] at hs
    subst hs hH
    simp [begins, hne]

/-- The blank-line separator step of `dictPass`/`elemsLoop` preserves the
    accumulator invariants. -/
theorem blank_facts (rv H : Str) (hline : LineShape H)
    (hinv : rv = [] ∨ rv.getLast? = some 10) (hfree : begins rv H = false) :
    begins (if 0 < rv.length then rv ++ [10] else rv) H = false ∧
    ((if 0 < rv.length then rv ++ [10] else rv) = [] ∨
     (if 0 < rv.length then rv ++ [10] else rv).getLast? = some 10) := by
  by_cases h0 : 0 < rv.length
  · rw [if_pos h0]
    refine ⟨?_, Or.inr (List.getLast?_concat _)⟩
    exact acc_append rv [10] H hline hinv hfree
      (fun hrv => by subst hrv; simp at h0)
  · rw [if_neg h0]
    exact ⟨hfree, hinv⟩

theorem blank_inv (rv : Str) (hinv : rv = [] ∨ rv.getLast? = some 10) :
    (if 0 < rv.length then rv ++ [10] else rv) = [] ∨
    (if 0 < rv.length then rv ++ [10] else rv).getLast? = some 10 := by
  by_cases h0 : 0 < rv.length
  · rw [if_pos h0]
    exact Or.inr (List.getLast?_concat _)
  · rw [if_neg h0]
    exact hinv

/-! Monotonicity: each pass only appends to its accumulator. -/

theorem scalarPass_mono : ∀ (fuel : Nat) (es : List (Str × Val)) (rv out : Str),
    scalarPass fuel es rv = .ok out → ∃ add, out = rv ++ add := by
  intro fuel
  induction fuel with
  | zero => intro es rv out h; exact absurd h (by simp [scalarPass])
  | succ fuel ih =>
    intro es rv out h
    rw [scalarPass.eq_def] at h
    dsimp only at h
    cases es with
    | nil =>
      refine ⟨[], ?_⟩
      simp only [Except.ok.injEq] at h
      simp [h]
    | cons kv rest =>
      obtain ⟨k, v⟩ := kv
      dsimp only at h
      split at h
      · split at h
        next dk dv hdk hdv =>
          obtain ⟨add, hadd⟩ := ih rest _ out h
          exact ⟨dk ++ str2cp " = " ++ dv ++ [10] ++ add, by simp [hadd]⟩
        next => exact absurd h (by simp)
        next => exact absurd h (by simp)
      · exact ih rest rv out h

theorem dictPass_mono : ∀ (fuel : Nat) (es : List (Str × Val)) (q : List Str)
    (rv out : Str), dictPass fuel es q rv = .ok out → ∃ add, out = rv ++ add := by
  intro fuel
  induction fuel with
  | zero => intro es q rv out h; exact absurd h (by simp [dictPass])
  | succ fuel ih =>
    intro es q rv out h
    rw [dictPass.eq_def] at h
    dsimp only at h
    cases es with
    | nil =>
      refine ⟨[], ?_⟩
      simp only [Except.ok.injEq] at h
      simp [h]
    | cons kv rest =>
      obtain ⟨k, v⟩ := kv
      dsimp only at h
      split at h
      next a b =>
        split at h
        next => exact absurd h (by simp)
        next sub hsub =>
          obtain ⟨add, hadd⟩ := ih rest q _ out h
          by_cases h0 : 0 < rv.length
          · rw [if_pos h0] at hadd
            exact ⟨10 :: sub ++ add, by simp [hadd]⟩
          · rw [if_neg h0] at hadd
            exact ⟨sub ++ add, by simp [hadd]⟩
      next => exact ih rest q rv out h

theorem elemsLoop_mono : ∀ (fuel : Nat) (elems : List Val) (p : List Str)
    (rv out : Str), elemsLoop fuel elems p rv = .ok out → ∃ add, out = rv ++ add := by
  intro fuel
  induction fuel with
  | zero => intro elems p rv out h; exact absurd h (by simp [elemsLoop])
  | succ fuel ih =>
    intro elems p rv out h
    rw [elemsLoop.eq_def] at h
    dsimp only at h
    cases elems with
    | nil =>
      refine ⟨[], ?_⟩
      simp only [Except.ok.injEq] at h
      simp [h]
    | cons ent rest =>
      dsimp only at h
      split at h
      next => exact absurd h (by simp)
      next sub hsub =>
        obtain ⟨add, hadd⟩ := ih rest p _ out h
        by_cases h0 : 0 < rv.length
        · rw [if_pos h0] at hadd
          exact ⟨10 :: sub ++ add, by simp [hadd]⟩
        · rw [if_neg h0] at hadd
          exact ⟨sub ++ add, by simp [hadd]⟩

theorem listPass_mono : ∀ (fuel : Nat) (es : List (Str × Val)) (q : List Str)
    (rv out : Str), listPass fuel es q rv = .ok out → ∃ add, out = rv ++ add := by
  intro fuel
  induction fuel with
  | zero => intro es q rv out h; exact absurd h (by simp [listPass])
  | succ fuel ih =>
    intro es q rv out h
    rw [listPass.eq_def] at h
    dsimp only at h
    cases es with
    | nil =>
      refine ⟨[], ?_⟩
      simp only [Except.ok.injEq] at h
      simp [h]
    | cons kv rest =>
      obtain ⟨k, v⟩ := kv
      dsimp only at h
      split at h
      next a elems =>
        split at h
        · split at h
          next => exact absurd h (by simp)
          next ev hev =>
            obtain ⟨add1, hadd1⟩ := elemsLoop_mono fuel elems (q ++ [k]) rv ev hev
            obtain ⟨add2, hadd2⟩ := ih rest q _ out h
            exact ⟨add1 ++ 10 :: add2, by simp [hadd2, hadd1]⟩
        · exact ih rest q rv out h
      next => exact ih rest q rv out h

/-- Simultaneous invariants of the section-dumping mutual recursion.
    For every successful call: (1) the output is empty or ends in a newline;
    (2) the output of `dump_sections` at path `q` never begins with the header
    line of any strictly shorter path, nor with its own header when the
    header condition fails; (3) the passes preserve both facts for any
    accumulated prefix. -/
theorem encHeaderFacts : ∀ fuel : Nat,
    (∀ obj q tarray out, dump_sections fuel obj q tarray = .ok out →
      (out = [] ∨ out.getLast? = some 10) ∧
      (∀ name tb,
        (StrictPref name q ∨
         (name = q ∧ ∀ i es, obj = Val.vtable i es → ¬ Cond q es tarray)) →
        begins out (headerStr name tb) = false)) ∧
    (∀ es rv out, scalarPass fuel es rv = .ok out →
      ((rv = [] ∨ rv.getLast? = some 10) → (out = [] ∨ out.getLast? = some 10)) ∧
      (∀ H, LineShape H → H.head? = some 91 →
        (rv = [] ∨ rv.getLast? = some 10) → begins rv H = false →
        begins out H = false)) ∧
    (∀ es q rv out, dictPass fuel es q rv = .ok out →
      ((rv = [] ∨ rv.getLast? = some 10) → (out = [] ∨ out.getLast? = some 10)) ∧
      (∀ name tb, (StrictPref name q ∨ name = q) →
        (rv = [] ∨ rv.getLast? = some 10) →
        begins rv (headerStr name tb) = false →
        begins out (headerStr name tb) = false)) ∧
    (∀ es q rv out, listPass fuel es q rv = .ok out →
      ((rv = [] ∨ rv.getLast? = some 10) → (out = [] ∨ out.getLast? = some 10)) ∧
      (∀ name tb, (StrictPref name q ∨ name = q) →
        (rv = [] ∨ rv.getLast? = some 10) →
        begins rv (headerStr name tb) = false →
        begins out (headerStr name tb) = false)) ∧
    (∀ elems p rv out, elemsLoop fuel elems p rv = .ok out →
      ((rv = [] ∨ rv.getLast? = some 10) → (out = [] ∨ out.getLast? = some 10)) ∧
      (∀ name tb, StrictPref name p →
        (rv = [] ∨ rv.getLast? = some 10) →
        begins rv (headerStr name tb) = false →
        begins out (headerStr name tb) = false)) := by
  intro fuel
  induction fuel with
  | zero =>
    refine ⟨?_, ?_, ?_, ?_, ?_⟩
    · intro obj q tarray out h
      rw [dump_sections.eq_def] at h
      simp at h
    · intro es rv out h
      rw [scalarPass.eq_def] at h
      simp at h
    · intro es q rv out h
      rw [dictPass.eq_def] at h
      simp at h
    · intro es q rv out h
      rw [listPass.eq_def] at h
      simp at h
    · intro elems p rv out h
      rw [elemsLoop.eq_def] at h
      simp at h
  | succ fuel ih =>
    obtain ⟨ihDS, ihSP, ihDP, ihLP, ihEL⟩ := ih
    refine ⟨?_, ?_, ?_, ?_, ?_⟩
    · -- dump_sections
      intro obj q tarray out h
      rw [dump_sections.eq_def] at h
      dsimp only at h
      cases obj with
      | vstr s => simp at h
      | vint n => simp at h
      | vfloat l => simp at h
      | vbool b => simp at h
      | vdate a b c => simp at h
      | vtime a b c d => simp at h
      | vdatetime a b c d e f g tz => simp at h
      | varr a es => simp at h
      | vtable i es =>
        obtain ⟨dn, hdn, hdnl, hdnne⟩ := dottedKeys_facts q
        rw [hdn] at h
        dsimp only at h
        split at h
        next e heq => exact absurd h (by simp)
        next rv0 heq =>
          split at heq
          next hc =>
            injection heq with hrv
            subst hrv
            rw [← headerStr_eq q tarray dn hdn] at h
            split at h
            next => exact absurd h (by simp)
            next s1 hs1 =>
              split at h
              next => exact absurd h (by simp)
              next s2 hs2 =>
                split at h
                next => exact absurd h (by simp)
                next s3 hs3 =>
                  split at h
                  next => exact absurd h (by simp)
                  next =>
                    simp only [Except.ok.injEq] at h
                    cases h
                    have i1 := (ihSP es _ s1 hs1).1
                      (Or.inr (headerStr_last q tarray))
                    have i2 := (ihDP es q s1 s2 hs2).1 i1
                    have i3 := (ihLP es q s2 _ hs3).1 i2
                    refine ⟨i3, ?_⟩
                    intro name tb hcase
                    have hline := headerStr_line name tb
                    have h91 := headerStr_head? name tb
                    rcases hcase with ⟨r, hr, rfl⟩ | ⟨rfl, hnc⟩
                    · have hfree0 : begins (headerStr (name ++ r) tarray)
                          (headerStr name tb) = false := by
                        have hm := header_mismatch name r tarray tb [] hr
                        simpa using hm
                      have f1 := (ihSP es _ s1 hs1).2 _ hline h91
                        (Or.inr (headerStr_last _ tarray)) hfree0
                      have f2 := (ihDP es _ s1 s2 hs2).2 name tb
                        (Or.inl ⟨r, hr, rfl⟩) i1 f1
                      exact (ihLP es _ s2 _ hs3).2 name tb
                        (Or.inl ⟨r, hr, rfl⟩) i2 f2
                    · exact absurd hc (hnc i es rfl)
          next hnc =>
            injection heq with hrv
            subst hrv
            split at h
            next => exact absurd h (by simp)
            next s1 hs1 =>
              split at h
              next => exact absurd h (by simp)
              next s2 hs2 =>
                split at h
                next => exact absurd h (by simp)
                next s3 hs3 =>
                  split at h
                  next => exact absurd h (by simp)
                  next =>
                    simp only [Except.ok.injEq] at h
                    cases h
                    have i1 := (ihSP es [] s1 hs1).1 (Or.inl rfl)
                    have i2 := (ihDP es q s1 s2 hs2).1 i1
                    have i3 := (ihLP es q s2 _ hs3).1 i2
                    refine ⟨i3, ?_⟩
                    intro name tb hcase
                    have hline := headerStr_line name tb
                    have h91 := headerStr_head? name tb
                    have hprefOr : StrictPref name q ∨ name = q := by
                      rcases hcase with hp | ⟨hq, _⟩
                      · exact Or.inl hp
                      · exact Or.inr hq
                    have f1 := (ihSP es [] s1 hs1).2 _ hline h91 (Or.inl rfl)
                      (headerStr_begins_nil name tb)
                    have f2 := (ihDP es q s1 s2 hs2).2 name tb hprefOr i1 f1
                    exact (ihLP es q s2 _ hs3).2 name tb hprefOr i2 f2
    · -- scalarPass
      intro es rv out h
      rw [scalarPass.eq_def] at h
      dsimp only at h
      cases es with
      | nil =>
        simp only [Except.ok.injEq] at h
        cases h
        exact ⟨fun hi => hi, fun H _ _ _ hf => hf⟩
      | cons kv rest =>
        obtain ⟨k, v⟩ := kv
        dsimp only at h
        split at h
        next hs =>
          split at h
          next dk dv hdk hdv =>
            obtain ⟨dk', hdk', hkne, hk91, hk93, hknl⟩ := dump_key_facts k
            rw [hdk] at hdk'
            injection hdk' with hdkeq
            subst hdkeq
            have hassoc : rv ++ dk ++ str2cp " = " ++ dv ++ [10] =
                rv ++ (dk ++ (str2cp " = " ++ (dv ++ [10]))) := by simp
            rw [hassoc] at h
            have hBlast : (dk ++ (str2cp " = " ++ (dv ++ [10]))).getLast? =
                some 10 := by
              have hb : dk ++ (str2cp " = " ++ (dv ++ [10])) =
                  (dk ++ str2cp " = " ++ dv) ++ [10] := by simp
              rw [hb]
              exact List.getLast?_concat _
            have hInv' : rv ++ (dk ++ (str2cp " = " ++ (dv ++ [10]))) = [] ∨
                (rv ++ (dk ++ (str2cp " = " ++ (dv ++ [10])))).getLast? =
                  some 10 := by
              right
              rw [List.getLast?_append, hBlast]
              rfl
            constructor
            · intro _
              exact (ihSP rest _ out h).1 hInv'
            · intro H hline h91 hinv hfree
              refine (ihSP rest _ out h).2 H hline h91 hInv' ?_
              refine acc_append rv _ H hline hinv hfree ?_
              intro _
              cases H with
              | nil => simp at h91
              | cons d u =>
                simp only [List.head?_cons, Option.some.injEq] at h91
                subst h91
                cases dk with
                | nil => exact absurd rfl hkne
                | cons c t =>
                  refine begins_head_ne _ _ c 91 u rfl rfl ?_
                  intro hc
                  exact hk91 (by simp [hc])
          next => exact absurd h (by simp)
          next => exact absurd h (by simp)
        next hs => exact ihSP rest rv out h
    · -- dictPass
      intro es q rv out h
      rw [dictPass.eq_def] at h
      dsimp only at h
      cases es with
      | nil =>
        simp only [Except.ok.injEq] at h
        cases h
        exact ⟨fun hi => hi, fun name tb _ _ hf => hf⟩
      | cons kv rest =>
        obtain ⟨k, v⟩ := kv
        dsimp only at h
        split at h
        next a b =>
          split at h
          next => exact absurd h (by simp)
          next sub hsub =>
            have hsubF := ihDS _ _ _ _ hsub
            constructor
            · intro hinv
              exact (ihDP rest q _ out h).1
                (inv_append _ sub (blank_inv rv hinv) hsubF.1)
            · intro name tb hpref hinv hfree
              have hline := headerStr_line name tb
              obtain ⟨hbf, hbi⟩ := blank_facts rv _ hline hinv hfree
              refine (ihDP rest q _ out h).2 name tb hpref
                (inv_append _ sub hbi hsubF.1) ?_
              refine acc_append _ sub _ hline hbi hbf ?_
              intro _
              exact hsubF.2 name tb (Or.inl (strictPref_snoc name q k hpref))
        next => exact ihDP rest q rv out h
    · -- listPass
      intro es q rv out h
      rw [listPass.eq_def] at h
      dsimp only at h
      cases es with
      | nil =>
        simp only [Except.ok.injEq] at h
        cases h
        exact ⟨fun hi => hi, fun name tb _ _ hf => hf⟩
      | cons kv rest =>
        obtain ⟨k, v⟩ := kv
        dsimp only at h
        split at h
        next a elems =>
          split at h
          next hns =>
            split at h
            next => exact absurd h (by simp)
            next ev hev =>
              have hEv := ihEL elems (q ++ [k]) rv ev hev
              constructor
              · intro _
                exact (ihLP rest q _ out h).1
                  (Or.inr (List.getLast?_concat _))
              · intro name tb hpref hinv hfree
                have hline := headerStr_line name tb
                have hevFree := hEv.2 name tb
                  (strictPref_snoc name q k hpref) hinv hfree
                have hevInv := hEv.1 hinv
                refine (ihLP rest q _ out h).2 name tb hpref
                  (Or.inr (List.getLast?_concat _)) ?_
                refine acc_append ev [10] _ hline hevInv hevFree ?_
                intro _
                obtain ⟨u, hu⟩ := headerStr_head name tb
                exact begins_head_ne [10] _ 10 91 u rfl hu (by omega)
          next hns => exact ihLP rest q rv out h
        next => exact ihLP rest q rv out h
    · -- elemsLoop
      intro elems p rv out h
      rw [elemsLoop.eq_def] at h
      dsimp only at h
      cases elems with
      | nil =>
        simp only [Except.ok.injEq] at h
        cases h
        exact ⟨fun hi => hi, fun name tb _ _ hf => hf⟩
      | cons ent rest =>
        dsimp only at h
        split at h
        next => exact absurd h (by simp)
        next sub hsub =>
          have hsubF := ihDS _ _ _ _ hsub
          constructor
          · intro hinv
            exact (ihEL rest p _ out h).1
              (inv_append _ sub (blank_inv rv hinv) hsubF.1)
          · intro name tb hpref hinv hfree
            have hline := headerStr_line name tb
            obtain ⟨hbf, hbi⟩ := blank_facts rv _ hline hinv hfree
            refine (ihEL rest p _ out h).2 name tb hpref
              (inv_append _ sub hbi hsubF.1) ?_
            refine acc_append _ sub _ hline hbi hbf ?_
            intro _
            exact hsubF.2 name tb (Or.inl hpref)

theorem any_map_snd (es : List (Str × Val)) :
    ((es.map fun kv => kv.2).any fun v => is_scalar v true) =
    (es.any fun kv => is_scalar kv.2 true) := by
  induction es with
  | nil => rfl
  | cons kv rest ihm => simp [ihm]

/-- C9: when dumping a table at path `P` (= `q`), the emitted text begins
    with the header line `[P]` or `[[P]]` if and only if `P` is non-empty
    and (the table contains at least one scalar-like value, or the call is
    for a table-array element (`tarray`), or the table is empty) — the
    header-emission rule of `dump_sections` (encoder.py lines 207-211). -/
theorem c9_header_emission (fuel i : Nat) (es : List (Str × Val)) (q : List Str)
    (tarray : Bool) (out : Str)
    (h : dump_sections fuel (.vtable i es) q tarray = .ok out) :
    (begins out (headerStr q true) = true ∨
     begins out (headerStr q false) = true) ↔
      (q ≠ [] ∧ ((es.any fun kv => is_scalar kv.2 true) = true ∨
                 tarray = true ∨ es = [])) := by
  have hmap := any_map_snd es
  constructor
  · intro hb
    by_contra hnc
    have hncC : ¬ Cond q es tarray := by
      intro hcC
      apply hnc
      refine ⟨hcC.1, ?_⟩
      rcases hcC.2 with h1 | h2 | h3
      · exact Or.inl (by rw [← hmap]; exact h1)
      · exact Or.inr (Or.inl h2)
      · exact Or.inr (Or.inr (List.isEmpty_iff.mp h3))
    have hfree := ((encHeaderFacts fuel).1 _ q tarray out h).2
    have hside : ∀ i' es', Val.vtable i es = Val.vtable i' es' →
        ¬ Cond q es' tarray := by
      intro i' es' he
      cases he
      exact hncC
    rcases hb with hb | hb
    · rw [hfree q true (Or.inr ⟨rfl, hside⟩)] at hb
      exact absurd hb (by simp)
    · rw [hfree q false (Or.inr ⟨rfl, hside⟩)] at hb
      exact absurd hb (by simp)
  · intro hcond
    have hcC : Cond q es tarray := by
      refine ⟨hcond.1, ?_⟩
      rcases hcond.2 with h1 | h2 | h3
      · exact Or.inl (by rw [hmap]; exact h1)
      · exact Or.inr (Or.inl h2)
      · exact Or.inr (Or.inr (by rw [h3]; rfl))
    cases fuel with
    | zero =>
      rw [dump_sections.eq_def] at h
      simp at h
    | succ fuel =>
      rw [dump_sections.eq_def] at h
      dsimp only at h
      obtain ⟨dn, hdn, _, _⟩ := dottedKeys_facts q
      rw [hdn] at h
      dsimp only at h
      split at h
      next e heq => exact absurd h (by simp)
      next rv0 heq =>
        split at heq
        next hcp =>
          injection heq with hrv
          subst hrv
          rw [← headerStr_eq q tarray dn hdn] at h
          split at h
          next => exact absurd h (by simp)
          next s1 hs1 =>
            split at h
            next => exact absurd h (by simp)
            next s2 hs2 =>
              split at h
              next => exact absurd h (by simp)
              next s3 hs3 =>
                split at h
                next => exact absurd h (by simp)
                next =>
                  simp only [Except.ok.injEq] at h
                  cases h
                  obtain ⟨a1, ha1⟩ := scalarPass_mono _ es _ s1 hs1
                  obtain ⟨a2, ha2⟩ := dictPass_mono _ es q _ s2 hs2
                  obtain ⟨a3, ha3⟩ := listPass_mono _ es q _ _ hs3
                  have hout : out = headerStr q tarray ++ (a1 ++ (a2 ++ a3)) := by
                    rw [ha3, ha2, ha1]
                    simp
                  cases tarray
                  · refine Or.inr ?_
                    rw [hout]
                    exact begins_append_self _ _
                  · refine Or.inl ?_
                    rw [hout]
                    exact begins_append_self _ _
        next hnc => exact absurd hcC hnc

/-- Witness for C9 at a concrete input: the empty table at path `b` emits
    exactly its header `[b]\n`, matching the condition (empty table). -/
theorem c9_header_emission_witness :
    (begins [91, 98, 93, 10] (headerStr [[98]] true) = true ∨
     begins [91, 98, 93, 10] (headerStr [[98]] false) = true) ↔
      (([[98]] : List Str) ≠ [] ∧
       ((([] : List (Str × Val)).any fun kv => is_scalar kv.2 true) = true ∨
        false = true ∨ ([] : List (Str × Val)) = [])) :=
  c9_header_emission 2 0 [] [[98]] false [91, 98, 93, 10] rfl

/-! ## C7: key uniqueness of every table in a decoded tree

`noDup` is the spec's invariant: within every table of the tree (root,
nested, inline, and table-array elements) the keys are pairwise distinct. -/

mutual

def noDup : Val → Bool
  | .varr _ es => noDupL es
  | .vtable _ es => noDupE es
  | _ => true

def noDupL : List Val → Bool
  | [] => true
  | v :: t => noDup v && noDupL t

def noDupE : List (Str × Val) → Bool
  | [] => true
  | (k, v) :: t => !(hasKey t k) && noDup v && noDupE t

end

theorem noDupE_lookup : ∀ (es : List (Str × Val)) (k : Str) (v : Val),
    noDupE es = true → lookupKey es k = some v → noDup v = true := by
  intro es
  induction es with
  | nil => intro k v _ hl; exact absurd hl (by simp [lookupKey])
  | cons kv t ih =>
    intro k v hd hl
    obtain ⟨k', v'⟩ := kv
    rw [noDupE] at hd
    simp only [Bool.and_eq_true] at hd
    rw [lookupKey] at hl
    split at hl
    · cases hl with
      | refl => exact hd.1.2
    · exact ih k v hd.2 hl

theorem hasKey_setKey : ∀ (es : List (Str × Val)) (k : Str) (v : Val) (k0 : Str),
    hasKey (setKey es k v) k0 = hasKey es k0 := by
  intro es
  induction es with
  | nil => intro k v k0; rfl
  | cons kv t ih =>
    intro k v k0
    obtain ⟨k', v'⟩ := kv
    rw [setKey]
    split
    · unfold hasKey lookupKey
      split <;> rfl
    · unfold hasKey lookupKey
      split
      · rfl
      · exact ih k v k0

theorem noDupE_setKey : ∀ (es : List (Str × Val)) (k : Str) (v : Val),
    noDupE es = true → noDup v = true → noDupE (setKey es k v) = true := by
  intro es
  induction es with
  | nil => intro k v hd _; exact hd
  | cons kv t ih =>
    intro k v hd hv
    obtain ⟨k', v'⟩ := kv
    rw [noDupE] at hd
    simp only [Bool.and_eq_true] at hd
    rw [setKey]
    split
    · rw [noDupE]
      simp only [Bool.and_eq_true]
      exact ⟨⟨hd.1.1, hv⟩, hd.2⟩
    · rw [noDupE]
      simp only [Bool.and_eq_true]
      refine ⟨⟨?_, hd.1.2⟩, ih k v hd.2 hv⟩
      rw [hasKey_setKey]
      exact hd.1.1

theorem hasKey_append : ∀ (es : List (Str × Val)) (k : Str) (v : Val) (k0 : Str),
    hasKey (es ++ [(k, v)]) k0 = (hasKey es k0 || decide (k = k0)) := by
  intro es
  induction es with
  | nil =>
    intro k v k0
    show hasKey [(k, v)] k0 = _
    by_cases h : k = k0 <;> simp [hasKey, lookupKey, h]
  | cons kv t ih =>
    intro k v k0
    obtain ⟨k', v'⟩ := kv
    show hasKey ((k', v') :: (t ++ [(k, v)])) k0 = _
    unfold hasKey lookupKey
    split
    · simp
    · exact ih k v k0

theorem noDupE_append : ∀ (es : List (Str × Val)) (k : Str) (v : Val),
    noDupE es = true → hasKey es k = false → noDup v = true →
    noDupE (es ++ [(k, v)]) = true := by
  intro es
  induction es with
  | nil =>
    intro k v _ _ hv
    show noDupE [(k, v)] = true
    rw [noDupE]
    simp [hv, noDupE, hasKey, lookupKey]
  | cons kv t ih =>
    intro k v hd hk hv
    obtain ⟨k', v'⟩ := kv
    rw [noDupE] at hd
    simp only [Bool.and_eq_true] at hd
    have hk' : hasKey t k = false ∧ k' ≠ k := by
      unfold hasKey lookupKey at hk
      split at hk
      · exact absurd hk (by simp)
      next hne => exact ⟨hk, hne⟩
    show noDupE ((k', v') :: (t ++ [(k, v)])) = true
    rw [noDupE]
    simp only [Bool.and_eq_true]
    refine ⟨⟨?_, hd.1.2⟩, ih k v hd.2 hk'.1 hv⟩
    rw [hasKey_append]
    have hne : ¬ k = k' := fun h => hk'.2 h.symm
    simp [hd.1.1, hne]

theorem noDupL_snoc : ∀ (l : List Val) (x : Val),
    noDupL l = true → noDup x = true → noDupL (l ++ [x]) = true := by
  intro l
  induction l with
  | nil => intro x _ hx; show noDupL [x] = true; simp [noDupL, hx]
  | cons v t ih =>
    intro x hl hx
    rw [noDupL] at hl
    simp only [Bool.and_eq_true] at hl
    show noDupL (v :: (t ++ [x])) = true
    rw [noDupL]
    simp [hl.1, ih x hl.2 hx]

theorem noDupL_dropLast : ∀ (l : List Val),
    noDupL l = true → noDupL l.dropLast = true
  | [] => fun _ => rfl
  | [v] => fun _ => rfl
  | v :: w :: t => by
    intro hl
    rw [noDupL] at hl
    simp only [Bool.and_eq_true] at hl
    show noDupL (v :: (w :: t).dropLast) = true
    rw [noDupL]
    simp [hl.1, noDupL_dropLast (w :: t) hl.2]

theorem noDupL_getLast : ∀ (l : List Val) (x : Val),
    noDupL l = true → l.getLast? = some x → noDup x = true
  | [] => by intro x _ hg; exact absurd hg (by simp)
  | [v] => by
    intro x hl hg
    rw [noDupL] at hl
    simp only [Bool.and_eq_true] at hl
    simp only [List.getLast?_singleton, Option.some.injEq] at hg
    rw [← hg]
    exact hl.1
  | v :: w :: t => by
    intro x hl hg
    rw [noDupL] at hl
    simp only [Bool.and_eq_true] at hl
    rw [List.getLast?_cons_cons] at hg
    exact noDupL_getLast (w :: t) x hl.2 hg

/-- The pair-insertion descent preserves key uniqueness everywhere in the
    tree: the terminal insert is guarded by the membership check, fresh
    tables are appended under fresh keys, and rebuilt nodes reuse `setKey`
    (which keeps the key set unchanged). -/
theorem procKlInsert_noDup : ∀ (kl : List Str) (c : Val) (k : Str) (v : Val)
    (msg : String) (al : Nat) (c' : Val) (al' : Nat),
    noDup c = true → noDup v = true →
    procKlInsert c kl k v msg al = .ok (c', al') → noDup c' = true
  | [] => by
    intro c k v msg al c' al' hc hv h
    rw [procKlInsert.eq_def] at h
    dsimp only at h
    cases c with
    | vtable ti es =>
      dsimp only at h
      split at h
      next => exact absurd h (by simp)
      next hk =>
        simp only [Except.ok.injEq, Prod.mk.injEq] at h
        obtain ⟨h1, _⟩ := h
        rw [← h1]
        show noDupE (es ++ [(k, v)]) = true
        exact noDupE_append es k v hc (by simpa using hk) hv
    | vstr s => simp at h
    | vint n => simp at h
    | vfloat l => simp at h
    | vbool b => simp at h
    | vdate a b c => simp at h
    | vtime a b c d => simp at h
    | vdatetime a b c d e f g tz => simp at h
    | varr a es => simp at h
  | [fk] => by
    intro c k v msg al c' al' hc hv h
    rw [procKlInsert.eq_def] at h
    dsimp only at h
    cases c with
    | vtable ci es =>
      dsimp only at h
      split at h
      next ti tes heq =>
        split at h
        next => exact absurd h (by simp)
        next hk =>
          simp only [Except.ok.injEq, Prod.mk.injEq] at h
          obtain ⟨h1, _⟩ := h
          rw [← h1]
          show noDupE (setKey es fk (.vtable ti (tes ++ [(k, v)]))) = true
          refine noDupE_setKey es fk _ hc ?_
          show noDupE (tes ++ [(k, v)]) = true
          have htes : noDup (.vtable ti tes) = true := noDupE_lookup es fk _ hc heq
          exact noDupE_append tes k v htes (by simpa using hk) hv
      next heq hne => exact absurd h (by simp)
      next heq =>
        simp only [Except.ok.injEq, Prod.mk.injEq] at h
        obtain ⟨h1, _⟩ := h
        rw [← h1]
        show noDupE (es ++ [(fk, .vtable al [(k, v)])]) = true
        refine noDupE_append es fk _ hc ?_ ?_
        · show (lookupKey es fk).isSome = false
          rw [heq]
          rfl
        · show noDupE [(k, v)] = true
          simp [noDupE, hasKey, lookupKey, hv]
    | vstr s => simp at h
    | vint n => simp at h
    | vfloat l => simp at h
    | vbool b => simp at h
    | vdate a b c => simp at h
    | vtime a b c d => simp at h
    | vdatetime a b c d e f g tz => simp at h
    | varr a es => simp at h
  | i :: r1 :: rest => by
    intro c k v msg al c' al' hc hv h
    rw [procKlInsert.eq_def] at h
    dsimp only at h
    cases c with
    | vtable ci es =>
      dsimp only at h
      split at h
      next => exact absurd h (by simp)
      next es1 civ al1 heq =>
        have hstep : noDupE es1 = true ∧ noDup civ = true := by
          split at heq
          next w hlk =>
            split at heq
            · simp only [Except.ok.injEq, Prod.mk.injEq] at heq
              obtain ⟨he1, he2, _⟩ := heq
              rw [← he1, ← he2]
              exact ⟨hc, noDupE_lookup es i _ hc hlk⟩
            · simp only [Except.ok.injEq, Prod.mk.injEq] at heq
              obtain ⟨he1, he2, _⟩ := heq
              rw [← he1, ← he2]
              exact ⟨hc, noDupE_lookup es i _ hc hlk⟩
            · exact absurd heq (by simp)
          next hlk =>
            simp only [Except.ok.injEq, Prod.mk.injEq] at heq
            obtain ⟨he1, he2, _⟩ := heq
            rw [← he1, ← he2]
            refine ⟨noDupE_append es i _ hc ?_ rfl, rfl⟩
            show (lookupKey es i).isSome = false
            rw [hlk]
            rfl
        split at h
        next ai elems =>
          split at h
          next => exact absurd h (by simp)
          next lastv hlast =>
            split at h
            next => exact absurd h (by simp)
            next sub al2 hsub =>
              simp only [Except.ok.injEq, Prod.mk.injEq] at h
              obtain ⟨h1, _⟩ := h
              rw [← h1]
              show noDupE (setKey es1 i (.varr ai (elems.dropLast ++ [sub]))) = true
              refine noDupE_setKey es1 i _ hstep.1 ?_
              show noDupL (elems.dropLast ++ [sub]) = true
              have hL : noDupL elems = true := hstep.2
              have hlv : noDup lastv = true := noDupL_getLast elems lastv hL hlast
              exact noDupL_snoc _ sub (noDupL_dropLast elems hL)
                (procKlInsert_noDup (r1 :: rest) lastv k v msg al1 sub al2 hlv hv hsub)
        next =>
          split at h
          next => exact absurd h (by simp)
          next sub al2 hsub =>
            simp only [Except.ok.injEq, Prod.mk.injEq] at h
            obtain ⟨h1, _⟩ := h
            rw [← h1]
            show noDupE (setKey es1 i sub) = true
            exact noDupE_setKey es1 i sub hstep.1
              (procKlInsert_noDup (r1 :: rest) civ k v msg al1 sub al2 hstep.2 hv hsub)
    | vstr s => simp at h
    | vint n => simp at h
    | vfloat l => simp at h
    | vbool b => simp at h
    | vdate a b c => simp at h
    | vtime a b c d => simp at h
    | vdatetime a b c d e f g tz => simp at h
    | varr a es => simp at h

/-- Insertion through the retained `cur_target` path preserves key
    uniqueness: the descent only rebuilds nodes with `setKey` /
    last-element replacement. -/
theorem insertAtPath_noDup : ∀ (path : List PStep) (c : Val) (kl : List Str)
    (k : Str) (v : Val) (msg : String) (al : Nat) (c' : Val) (al' : Nat),
    noDup c = true → noDup v = true →
    insertAtPath c path kl k v msg al = .ok (c', al') → noDup c' = true
  | [] => by
    intro c kl k v msg al c' al' hc hv h
    rw [insertAtPath.eq_def] at h
    dsimp only at h
    exact procKlInsert_noDup kl c k v msg al c' al' hc hv h
  | .intoKey kk :: rest => by
    intro c kl k v msg al c' al' hc hv h
    rw [insertAtPath.eq_def] at h
    dsimp only at h
    cases c with
    | vtable ci es =>
      dsimp only at h
      split at h
      next sub hlk =>
        split at h
        next sub' al2 hsub =>
          simp only [Except.ok.injEq, Prod.mk.injEq] at h
          obtain ⟨h1, _⟩ := h
          rw [← h1]
          show noDupE (setKey es kk sub') = true
          exact noDupE_setKey es kk sub' hc
            (insertAtPath_noDup rest sub kl k v msg al sub' al2
              (noDupE_lookup es kk sub hc hlk) hv hsub)
        next => exact absurd h (by simp)
      next => exact absurd h (by simp)
    | vstr s => simp at h
    | vint n => simp at h
    | vfloat l => simp at h
    | vbool b => simp at h
    | vdate a b c => simp at h
    | vtime a b c d => simp at h
    | vdatetime a b c d e f g tz => simp at h
    | varr a es => simp at h
  | .intoLast kk :: rest => by
    intro c kl k v msg al c' al' hc hv h
    rw [insertAtPath.eq_def] at h
    dsimp only at h
    cases c with
    | vtable ci es =>
      dsimp only at h
      split at h
      next ai elems hlk =>
        split at h
        next sub hlast =>
          split at h
          next sub' al2 hsub =>
            simp only [Except.ok.injEq, Prod.mk.injEq] at h
            obtain ⟨h1, _⟩ := h
            rw [← h1]
            show noDupE (setKey es kk (.varr ai (elems.dropLast ++ [sub']))) = true
            refine noDupE_setKey es kk _ hc ?_
            show noDupL (elems.dropLast ++ [sub']) = true
            have hL : noDup (.varr ai elems) = true := noDupE_lookup es kk _ hc hlk
            refine noDupL_snoc _ sub' (noDupL_dropLast elems hL) ?_
            exact insertAtPath_noDup rest sub kl k v msg al sub' al2
              (noDupL_getLast elems sub hL hlast) hv hsub
          next => exact absurd h (by simp)
        next => exact absurd h (by simp)
      next => exact absurd h (by simp)
    | vstr s => simp at h
    | vint n => simp at h
    | vfloat l => simp at h
    | vbool b => simp at h
    | vdate a b c => simp at h
    | vtime a b c d => simp at h
    | vdatetime a b c d e f g tz => simp at h
    | varr a es => simp at h

/-- `proc_kl` preserves key uniqueness: fresh tables and fresh table-array
    elements enter under fresh keys (or as appended array elements), and
    existing nodes are rebuilt with `setKey`. -/
theorem procKl_noDup : ∀ (kl : List Str) (c : Val) (tarray : Bool)
    (arrays : List Nat) (al : Nat) (c' : Val) (tid : Nat) (path : List PStep)
    (al' : Nat), noDup c = true →
    procKl c kl tarray arrays al = .ok (c', tid, path, al') → noDup c' = true
  | [] => by
    intro c tarray arrays al c' tid path al' hc h
    rw [procKl.eq_def] at h
    dsimp only at h
    cases c with
    | vtable ti es =>
      dsimp only at h
      simp only [Except.ok.injEq, Prod.mk.injEq] at h
      obtain ⟨h1, _⟩ := h
      rw [← h1]
      exact hc
    | vstr s => simp at h
    | vint n => simp at h
    | vfloat l => simp at h
    | vbool b => simp at h
    | vdate a b c => simp at h
    | vtime a b c d => simp at h
    | vdatetime a b c d e f g tz => simp at h
    | varr a es => simp at h
  | [fk] => by
    intro c tarray arrays al c' tid path al' hc h
    rw [procKl.eq_def] at h
    dsimp only at h
    cases c with
    | vtable ci es =>
      dsimp only at h
      split at h
      · -- tarray = true
        split at h
        next ai elems hlk =>
          split at h
          next => exact absurd h (by simp)
          next =>
            simp only [Except.ok.injEq, Prod.mk.injEq] at h
            obtain ⟨h1, _⟩ := h
            rw [← h1]
            show noDupE (setKey es fk (.varr ai (elems ++ [.vtable al []]))) = true
            refine noDupE_setKey es fk _ hc ?_
            show noDupL (elems ++ [.vtable al []]) = true
            have hL : noDup (.varr ai elems) = true := noDupE_lookup es fk _ hc hlk
            exact noDupL_snoc elems _ hL rfl
        next => exact absurd h (by simp)
        next hlk =>
          split at h
          next => exact absurd h (by simp)
          next =>
            simp only [Except.ok.injEq, Prod.mk.injEq] at h
            obtain ⟨h1, _⟩ := h
            rw [← h1]
            show noDupE (es ++ [(fk, .varr al [.vtable (al + 1) []])]) = true
            refine noDupE_append es fk _ hc ?_ rfl
            show (lookupKey es fk).isSome = false
            rw [hlk]
            rfl
      · -- tarray = false
        split at h
        next ti _ hlk =>
          simp only [Except.ok.injEq, Prod.mk.injEq] at h
          obtain ⟨h1, _⟩ := h
          rw [← h1]
          exact hc
        next => exact absurd h (by simp)
        next hlk =>
          simp only [Except.ok.injEq, Prod.mk.injEq] at h
          obtain ⟨h1, _⟩ := h
          rw [← h1]
          show noDupE (es ++ [(fk, .vtable al [])]) = true
          refine noDupE_append es fk _ hc ?_ rfl
          show (lookupKey es fk).isSome = false
          rw [hlk]
          rfl
    | vstr s => simp at h
    | vint n => simp at h
    | vfloat l => simp at h
    | vbool b => simp at h
    | vdate a b c => simp at h
    | vtime a b c d => simp at h
    | vdatetime a b c d e f g tz => simp at h
    | varr a es => simp at h
  | i :: r1 :: rest => by
    intro c tarray arrays al c' tid path al' hc h
    rw [procKl.eq_def] at h
    dsimp only at h
    cases c with
    | vtable ci es =>
      dsimp only at h
      split at h
      next => exact absurd h (by simp)
      next es1 civ al1 heq =>
        have hstep : noDupE es1 = true ∧ noDup civ = true := by
          split at heq
          next w hlk =>
            split at heq
            · simp only [Except.ok.injEq, Prod.mk.injEq] at heq
              obtain ⟨he1, he2, _⟩ := heq
              rw [← he1, ← he2]
              exact ⟨hc, noDupE_lookup es i _ hc hlk⟩
            · simp only [Except.ok.injEq, Prod.mk.injEq] at heq
              obtain ⟨he1, he2, _⟩ := heq
              rw [← he1, ← he2]
              exact ⟨hc, noDupE_lookup es i _ hc hlk⟩
            · exact absurd heq (by simp)
          next hlk =>
            simp only [Except.ok.injEq, Prod.mk.injEq] at heq
            obtain ⟨he1, he2, _⟩ := heq
            rw [← he1, ← he2]
            refine ⟨noDupE_append es i _ hc ?_ rfl, rfl⟩
            show (lookupKey es i).isSome = false
            rw [hlk]
            rfl
        split at h
        next ai elems =>
          split at h
          next => exact absurd h (by simp)
          next =>
            split at h
            next => exact absurd h (by simp)
            next lastv hlast =>
              split at h
              next => exact absurd h (by simp)
              next sub tid2 path2 al2 hsub =>
                simp only [Except.ok.injEq, Prod.mk.injEq] at h
                obtain ⟨h1, _⟩ := h
                rw [← h1]
                show noDupE (setKey es1 i (.varr ai (elems.dropLast ++ [sub]))) = true
                refine noDupE_setKey es1 i _ hstep.1 ?_
                show noDupL (elems.dropLast ++ [sub]) = true
                have hL : noDupL elems = true := hstep.2
                refine noDupL_snoc _ sub (noDupL_dropLast elems hL) ?_
                exact procKl_noDup (r1 :: rest) lastv tarray arrays al1 sub tid2
                  path2 al2 (noDupL_getLast elems lastv hL hlast) hsub
        next =>
          split at h
          next => exact absurd h (by simp)
          next sub tid2 path2 al2 hsub =>
            simp only [Except.ok.injEq, Prod.mk.injEq] at h
            obtain ⟨h1, _⟩ := h
            rw [← h1]
            show noDupE (setKey es1 i sub) = true
            exact noDupE_setKey es1 i sub hstep.1
              (procKl_noDup (r1 :: rest) civ tarray arrays al1 sub tid2 path2 al2
                hstep.2 hsub)
    | vstr s => simp at h
    | vint n => simp at h
    | vfloat l => simp at h
    | vbool b => simp at h
    | vdate a b c => simp at h
    | vtime a b c d => simp at h
    | vdatetime a b c d e f g tz => simp at h
    | varr a es => simp at h

theorem parse_int_noDup (p : ParseState) (v : Val) (p' : ParseState)
    (h : parse_int p = .ok (v, p')) : noDup v = true := by
  unfold parse_int at h
  split at h
  next => exact absurd h (by simp)
  next endPos caps =>
    dsimp only at h
    split at h
    next => exact absurd h (by simp)
    next =>
      split at h
      next => exact absurd h (by simp)
      next n hsd =>
        simp only [Except.ok.injEq, Prod.mk.injEq] at h
        obtain ⟨h1, _⟩ := h
        rw [← h1]
        rfl

theorem parse_float_noDup (p : ParseState) (v : Val) (p' : ParseState)
    (h : parse_float p = .ok (v, p')) : noDup v = true := by
  unfold parse_float at h
  split at h
  next => exact absurd h (by simp)
  next endPos caps =>
    dsimp only at h
    split at h
    next => exact absurd h (by simp)
    next =>
      split at h
      next => exact absurd h (by simp)
      next =>
        simp only [Except.ok.injEq, Prod.mk.injEq] at h
        obtain ⟨h1, _⟩ := h
        rw [← h1]
        rfl

theorem parse_datetime_noDup (p : ParseState) (v : Val) (p' : ParseState)
    (h : parse_datetime p = .ok (v, p')) : noDup v = true := by
  unfold parse_datetime at h
  split at h
  next endPos caps =>
    dsimp only at h
    split at h
    next => exact absurd h (by simp)
    next y mo d hd =>
      split at h
      next => exact absurd h (by simp)
      next hh mi se us ht =>
        split at h
        next => exact absurd h (by simp)
        next tz htz =>
          simp only [Except.ok.injEq, Prod.mk.injEq] at h
          obtain ⟨h1, _⟩ := h
          rw [← h1]
          rfl
  next =>
    split at h
    next endPos caps =>
      dsimp only at h
      split at h
      next => exact absurd h (by simp)
      next hh mi se us ht =>
        simp only [Except.ok.injEq, Prod.mk.injEq] at h
        obtain ⟨h1, _⟩ := h
        rw [← h1]
        rfl
    next =>
      split at h
      next endPos caps =>
        dsimp only at h
        split at h
        next => exact absurd h (by simp)
        next y mo d hd =>
          simp only [Except.ok.injEq, Prod.mk.injEq] at h
          obtain ⟨h1, _⟩ := h
          rw [← h1]
          rfl
      next => exact absurd h (by simp)

/-- Every value produced by the value parsers satisfies `noDup`: scalars
    trivially, arrays and inline tables by construction (`procKlInsert`
    guards the inline-table inserts). -/
theorem parseNoDup : ∀ fuel : Nat,
    (∀ p al v p' al', parse_value fuel p al = .ok (v, p', al') →
      noDup v = true) ∧
    (∀ p al v p' al', parse_array fuel p al = .ok (v, p', al') →
      noDup v = true) ∧
    (∀ rvId acc p al v p' al', noDupL acc = true →
      arrayLoop fuel rvId acc p al = .ok (v, p', al') → noDup v = true) ∧
    (∀ p al v p' al', parse_inline_table fuel p al = .ok (v, p', al') →
      noDup v = true) ∧
    (∀ rv p al v p' al', noDup rv = true →
      inlineLoop fuel rv p al = .ok (v, p', al') → noDup v = true) := by
  intro fuel
  induction fuel with
  | zero =>
    refine ⟨?_, ?_, ?_, ?_, ?_⟩
    · intro p al v p' al' h
      rw [parse_value.eq_def] at h
      simp at h
    · intro p al v p' al' h
      rw [parse_array.eq_def] at h
      simp at h
    · intro rvId acc p al v p' al' _ h
      rw [arrayLoop.eq_def] at h
      simp at h
    · intro p al v p' al' h
      rw [parse_inline_table.eq_def] at h
      simp at h
    · intro rv p al v p' al' _ h
      rw [inlineLoop.eq_def] at h
      simp at h
  | succ fuel ih =>
    obtain ⟨ihPV, ihPA, ihAL, ihPIT, ihIL⟩ := ih
    refine ⟨?_, ?_, ?_, ?_, ?_⟩
    · -- parse_value
      intro p al v p' al' h
      rw [parse_value.eq_def] at h
      dsimp only at h
      split at h
      next hq =>
        split at h
        next => exact absurd h (by simp)
        next s p2 hds =>
          simp only [Except.ok.injEq, Prod.mk.injEq] at h
          obtain ⟨h1, _⟩ := h
          rw [← h1]
          rfl
      next =>
        split at h
        next => exact ihPA p al v p' al' h
        next =>
          split at h
          next => exact ihPIT p al v p' al' h
          next =>
            split at h
            next =>
              simp only [Except.ok.injEq, Prod.mk.injEq] at h
              obtain ⟨h1, _⟩ := h
              rw [← h1]
              rfl
            next =>
              split at h
              next =>
                simp only [Except.ok.injEq, Prod.mk.injEq] at h
                obtain ⟨h1, _⟩ := h
                rw [← h1]
                rfl
              next =>
                split at h
                next =>
                  split at h
                  next => exact absurd h (by simp)
                  next v0 p2 hpi =>
                    simp only [Except.ok.injEq, Prod.mk.injEq] at h
                    obtain ⟨h1, _⟩ := h
                    rw [← h1]
                    exact parse_int_noDup p v0 p2 hpi
                next =>
                  split at h
                  next =>
                    split at h
                    next => exact absurd h (by simp)
                    next v0 p2 hpf =>
                      simp only [Except.ok.injEq, Prod.mk.injEq] at h
                      obtain ⟨h1, _⟩ := h
                      rw [← h1]
                      exact parse_float_noDup p v0 p2 hpf
                  next =>
                    split at h
                    next =>
                      split at h
                      next => exact absurd h (by simp)
                      next v0 p2 hpd =>
                        simp only [Except.ok.injEq, Prod.mk.injEq] at h
                        obtain ⟨h1, _⟩ := h
                        rw [← h1]
                        exact parse_datetime_noDup p v0 p2 hpd
                    next => exact absurd h (by simp)
    · -- parse_array
      intro p al v p' al' h
      rw [parse_array.eq_def] at h
      dsimp only at h
      split at h
      next => exact absurd h (by simp)
      next => exact ihAL al [] _ _ v p' al' rfl h
    · -- arrayLoop
      intro rvId acc p al v p' al' hacc h
      rw [arrayLoop.eq_def] at h
      dsimp only at h
      split at h
      next =>
        simp only [Except.ok.injEq, Prod.mk.injEq] at h
        obtain ⟨h1, _⟩ := h
        rw [← h1]
        exact hacc
      next =>
        split at h
        next => exact absurd h (by simp)
        next v0 p2 al2 hpv =>
          split at h
          next =>
            exact ihAL rvId (acc ++ [v0]) _ _ v p' al'
              (noDupL_snoc acc v0 hacc (ihPV p al v0 p2 al2 hpv)) h
          next =>
            split at h
            next =>
              simp only [Except.ok.injEq, Prod.mk.injEq] at h
              obtain ⟨h1, _⟩ := h
              rw [← h1]
              exact noDupL_snoc acc v0 hacc (ihPV p al v0 p2 al2 hpv)
            next => exact absurd h (by simp)
    · -- parse_inline_table
      intro p al v p' al' h
      rw [parse_inline_table.eq_def] at h
      dsimp only at h
      split at h
      next => exact absurd h (by simp)
      next => exact ihIL (.vtable al []) _ _ v p' al' rfl h
    · -- inlineLoop
      intro rv p al v p' al' hrv h
      rw [inlineLoop.eq_def] at h
      dsimp only at h
      split at h
      next =>
        simp only [Except.ok.injEq, Prod.mk.injEq] at h
        obtain ⟨h1, _⟩ := h
        rw [← h1]
        exact hrv
      next =>
        split at h
        next => exact absurd h (by simp)
        next kl p2 hkl =>
          split at h
          next => exact absurd h (by simp)
          next =>
            split at h
            next => exact absurd h (by simp)
            next v0 p3 al3 hpv =>
              split at h
              next => exact absurd h (by simp)
              next k hk =>
                split at h
                next => exact absurd h (by simp)
                next rv2 al4 hins =>
                  have hrv2 : noDup rv2 = true :=
                    procKlInsert_noDup kl.dropLast rv k v0 _ al3 rv2 al4 hrv
                      (ihPV _ _ v0 p3 al3 hpv) hins
                  split at h
                  next => exact ihIL rv2 _ _ v p' al' hrv2 h
                  next =>
                    split at h
                    next =>
                      simp only [Except.ok.injEq, Prod.mk.injEq] at h
                      obtain ⟨h1, _⟩ := h
                      rw [← h1]
                      exact hrv2
                    next => exact absurd h (by simp)

theorem parse_pair_noDup (F : Nat) (p : ParseState) (al : Nat) (kl : List Str)
    (v : Val) (p' : ParseState) (al' : Nat)
    (h : parse_pair F p al = .ok (some (kl, v), p', al')) : noDup v = true := by
  unfold parse_pair at h
  split at h
  next => simp at h
  next =>
    split at h
    next => exact absurd h (by simp)
    next kl0 p2 hkl =>
      dsimp only at h
      split at h
      next => exact absurd h (by simp)
      next =>
        split at h
        next => exact absurd h (by simp)
        next v0 p3 al3 hpv =>
          simp only [Except.ok.injEq, Prod.mk.injEq, Option.some.injEq] at h
          obtain ⟨⟨_, h2⟩, _⟩ := h
          rw [← h2]
          exact (parseNoDup F).1 _ _ v0 p3 al3 hpv

/-- The top-level loop of `loads` preserves the key-uniqueness invariant of
    the whole tree. -/
theorem loadsLoop_noDup : ∀ (fuel F : Nat) (root : Val) (curPath : List PStep)
    (first : Bool) (targets arrays : List Nat) (al : Nat) (p : ParseState)
    (n : Nat) (out : Val), noDup root = true →
    loadsLoop fuel F root curPath first targets arrays al p n = .ok out →
    noDup out = true := by
  intro fuel
  induction fuel with
  | zero =>
    intro F root curPath first targets arrays al p n out _ h
    rw [loadsLoop.eq_def] at h
    simp at h
  | succ fuel ihL =>
    intro F root curPath first targets arrays al p n out hroot h
    rw [loadsLoop.eq_def] at h
    dsimp only at h
    split at h
    next =>
      simp only [Except.ok.injEq] at h
      rw [← h]
      exact hroot
    next =>
      rcases hpt : parse_throwaway p with ⟨n2, p2⟩
      rw [hpt] at h
      dsimp only at h
      split at h
      next => exact absurd h (by simp)
      next =>
        split at h
        next =>
          split at h
          next => exact absurd h (by simp)
          next kl p3 hts =>
            split at h
            next => exact absurd h (by simp)
            next root2 tid path2 al2 hpk =>
              split at h
              next => exact absurd h (by simp)
              next =>
                rcases hpt2 : parse_throwaway p3 with ⟨n3, p4⟩
                rw [hpt2] at h
                dsimp only at h
                exact ihL F root2 path2 false _ arrays al2 p4 n3 out
                  (procKl_noDup kl root _ arrays al root2 tid path2 al2 hroot hpk) h
        next =>
          split at h
          next => exact absurd h (by simp)
          next p3 al3 hpp =>
            rcases hpt2 : parse_throwaway p3 with ⟨n3, p4⟩
            rw [hpt2] at h
            dsimp only at h
            exact ihL F root curPath false targets arrays al3 p4 n3 out hroot h
          next kl v0 p3 al3 hpp =>
            split at h
            next => exact absurd h (by simp)
            next k hk =>
              split at h
              next => exact absurd h (by simp)
              next root2 al4 hins =>
                rcases hpt2 : parse_throwaway p3 with ⟨n3, p4⟩
                rw [hpt2] at h
                dsimp only at h
                exact ihL F root2 curPath false targets _ al4 p4 n3 out
                  (insertAtPath_noDup curPath root kl.dropLast k v0 _ al3 root2 al4
                    hroot (parse_pair_noDup F p2 al kl v0 p3 al3 hpp) hins) h

/-- C7: every successful decode yields a tree in which every table — root,
    nested, inline, or table-array element — has pairwise-distinct keys
    (`noDup`); and an insertion whose terminal key is already present in the
    target table raises a decode error carrying the caller's message
    (`Key is repeated` / `duplicated key in inline`) instead of overwriting. -/
theorem c7_no_duplicate_keys :
    (∀ s v, loads s = .ok v → noDup v = true) ∧
    (∀ ti es k v msg al, hasKey es k = true →
      procKlInsert (.vtable ti es) [] k v msg al =
        .error (.decodeError msg)) := by
  constructor
  · intro s v h
    unfold loads at h
    exact loadsLoop_noDup _ _ (.vtable 0 []) [] true [] [] 1 (mkParse s) 0 v rfl h
  · intro ti es k v msg al hk
    rw [procKlInsert.eq_def]
    dsimp only
    simp [hk]

/-- Witness for C7 at a concrete input: `a = 1` decodes to a one-key root
    table, which satisfies `noDup`; inserting under the existing terminal key
    `a` raises the decode error. -/
theorem c7_no_duplicate_keys_witness :
    noDup (.vtable 0 [([97], .vint 1)]) = true ∧
    procKlInsert (.vtable 0 [([97], .vint 1)]) [] [97] (.vint 2)
      "Key is repeated" 1 = .error (.decodeError "Key is repeated") :=
  ⟨c7_no_duplicate_keys.1 (str2cp "a = 1\n") _ (by
      have key : ∀ x : Except Err Val,
          (match x with
           | .ok (.vtable 0 [([97], .vint 1)]) => true
           | _ => false) = true →
          x = .ok (.vtable 0 [([97], .vint 1)]) := by
        intro x hx
        split at hx
        · rfl
        · exact absurd hx (by simp)
      exact key _ (by decide!)),
   c7_no_duplicate_keys.2 0 [([97], .vint 1)] [97] (.vint 2)
     "Key is repeated" 1 rfl⟩

end QToml
